import Mathlib

/-!
# pi-carplay — shallow embedding and verification

This file embeds, in Lean 4, the parts of the `wikilift/pi-carplay`
sources that the specification's claims are about, and proves (or
refutes) each claim against that embedding:

* `src/renderer/public/audio.worklet.js` — the `RingBuffReader` over the
  shared PCM ring and the `PCMWorkletProcessor` (priming / preroll,
  adaptive target, ramp, underrun reporting);
* `src/main/.../CarplayService` — AudioData routing (PCM chunk
  forwarding vs. microphone command routing), the `to01` coordinate
  clamp of the multi-touch IPC handler;
* the `Carplay` driver wrapper — pair-timeout scheduling/cancellation;
* `Render.worker.ts` — SPS+IDR gating of the H.264 decoder;
* `useCarplayTouch.ts` — `clamp01` / `norm` and the multi-touch
  slot-allocation state machine.

JavaScript numbers are embedded as follows: counters, indices and sizes
(always integral in the sources) become `Nat`; PCM sample values become
`Int` (int16 contents) and `Rat` (float samples after `/ 32768`); the
touch-coordinate functions, whose claims mention NaN and infinities,
are embedded over an explicit `JSNum` type with JavaScript comparison
semantics.
-/

namespace PiCarplay

/-! ## Ascending iteration helper (JS `for` loops writing by index) -/

/-- `upto n f a` applies `f 0`, `f 1`, …, `f (n-1)` to `a`, in that
order (index-ascending loop). -/
def upto (n : ℕ) (f : ℕ → α → α) (a : α) : α :=
  match n with
  | 0 => a
  | m + 1 => f m (upto m f a)

/-! ## JS number semantics for the touch-coordinate clamps

`clamp01` / `norm` (renderer hook) and `to01` (main-process multi-touch
handler) only compare, subtract and divide; no rounding is involved, so
finite values are carried exactly as rationals and the special values
NaN / ±∞ are explicit constructors. -/

inductive JSNum where
  | fin : ℚ → JSNum
  | posInf : JSNum
  | negInf : JSNum
  | nan : JSNum
deriving DecidableEq, Repr

namespace JSNum

/-- JavaScript `<` on numbers: any comparison with NaN is `false`. -/
def jlt : JSNum → JSNum → Bool
  | fin a, fin b => a < b
  | fin _, posInf => true
  | fin _, negInf => false
  | posInf, _ => false
  | negInf, fin _ => true
  | negInf, posInf => true
  | negInf, negInf => false
  | nan, _ => false
  | _, nan => false

/-- JavaScript `>` on numbers: any comparison with NaN is `false`. -/
def jgt (a b : JSNum) : Bool := jlt b a

/-- JavaScript `Number.isFinite`. -/
def isFinite : JSNum → Bool
  | fin _ => true
  | _ => false

/-- JavaScript subtraction (no signed zero; claims do not depend on it). -/
def jsub : JSNum → JSNum → JSNum
  | fin a, fin b => fin (a - b)
  | fin _, posInf => negInf
  | fin _, negInf => posInf
  | posInf, fin _ => posInf
  | posInf, negInf => posInf
  | posInf, posInf => nan
  | negInf, fin _ => negInf
  | negInf, posInf => negInf
  | negInf, negInf => nan
  | nan, _ => nan
  | _, nan => nan

/-- JavaScript division (no signed zero; claims do not depend on it). -/
def jdiv : JSNum → JSNum → JSNum
  | fin a, fin b =>
    if b = 0 then (if a = 0 then nan else if a > 0 then posInf else negInf)
    else fin (a / b)
  | fin _, posInf => fin 0
  | fin _, negInf => fin 0
  | posInf, fin _ => posInf
  | negInf, fin _ => negInf
  | posInf, posInf => nan
  | posInf, negInf => nan
  | negInf, posInf => nan
  | negInf, negInf => nan
  | nan, _ => nan
  | _, nan => nan

end JSNum

/-- `useCarplayTouch.ts`:
`const clamp01 = (v: number) => (v < 0 ? 0 : v > 1 ? 1 : v)`. -/
def clamp01 (v : JSNum) : JSNum :=
  if v.jlt (.fin 0) then .fin 0 else if v.jgt (.fin 1) then .fin 1 else v

/-- `useCarplayTouch.ts` `norm` (one coordinate): given the bounding
rect's origin and extent, `clamp01((c - origin) / extent)`. -/
def normCoord (origin extent c : JSNum) : JSNum :=
  clamp01 ((c.jsub origin).jdiv extent)

/-- `CarplayService` (`carplay-multi-touch` handler):
`const to01 = (v) => { const n = Number.isFinite(v) ? v : 0; return n < 0 ? 0 : n > 1 ? 1 : n }`. -/
def to01 (v : JSNum) : JSNum :=
  let n := if v.isFinite then v else .fin 0
  if n.jlt (.fin 0) then .fin 0 else if n.jgt (.fin 1) then .fin 1 else n

/-- The value is a finite number in the closed interval `[0, 1]`. -/
def inUnit (v : JSNum) : Prop := ∃ q : ℚ, v = .fin q ∧ 0 ≤ q ∧ q ≤ 1

instance (v : JSNum) : Decidable (inUnit v) := by
  unfold inUnit
  cases v with
  | fin q =>
    by_cases h : 0 ≤ q ∧ q ≤ 1
    · exact .isTrue ⟨q, rfl, h.1, h.2⟩
    · exact .isFalse (by rintro ⟨q', hq', h0, h1⟩; cases hq'; exact h ⟨h0, h1⟩)
  | posInf => exact .isFalse (by rintro ⟨q, hq, -, -⟩; cases hq)
  | negInf => exact .isFalse (by rintro ⟨q, hq, -, -⟩; cases hq)
  | nan => exact .isFalse (by rintro ⟨q, hq, -, -⟩; cases hq)

/-! ## The shared PCM ring (`audio.worklet.js`, `RingBuffReader`)

The shared buffer holds `N` interleaved int16 samples (`storage`) and two
32-bit indices.  `storage` is a `List ℤ` of length `size`; the two
pointers are plain naturals (they are kept `< size` by both sides). -/

structure Ring where
  storage : List ℤ
  read : ℕ
  write : ℕ
deriving Repr

namespace Ring

/-- `this.storage.length`. -/
def size (r : Ring) : ℕ := r.storage.length

/-- `getReadInfo`: `available = (writePos + storage.length - readPos) % storage.length`. -/
def avail (r : Ring) : ℕ := (r.write + r.size - r.read) % r.size

/-- Well-formedness maintained by both sides: the pointers are in-range. -/
def wf (r : Ring) : Prop := r.read < r.size ∧ r.write < r.size

/-- `RingBuffReader.readTo`: copies `min(available, target.length)`
samples (wrapping once at the end of storage) and publishes
`(readPos + readLength) % storage.length` as the new read index.
Returns the copied samples and the updated ring. -/
def readTo (r : Ring) (targetLen : ℕ) : List ℤ × Ring :=
  let av := r.avail
  if av = 0 then ([], r)
  else
    let readLength := min av targetLen
    let first := min (r.size - r.read) readLength
    let second := readLength - first
    let out := (r.storage.drop r.read).take first ++ r.storage.take second
    (out, { r with read := (r.read + readLength) % r.size })

/-- Writes `xs` one sample at a time starting at index `p % storage.length`,
advancing the position. -/
def writeSeq (st : List ℤ) (p : ℕ) (xs : List ℤ) : List ℤ :=
  match xs with
  | [] => st
  | x :: rest => writeSeq (st.set (p % st.length) x) (p + 1) rest

/-- Modelled from the spec: the PCM ring writer (the `PcmPlayer` /
decode-side producer) is not among the provided sources — only the
reader is.  Per §4.6, the writer appends interleaved int16 samples at
the write index, never overwrites unread data (samples that would do so
are dropped at the writer), and then publishes the advanced write
index.  Returns the updated ring and the number of samples accepted. -/
def writeFrom (r : Ring) (xs : List ℤ) : Ring × ℕ :=
  let free := r.size - 1 - r.avail
  let n := min xs.length free
  (⟨writeSeq r.storage r.write (xs.take n), r.read, (r.write + n) % r.size⟩, n)

end Ring

/-- One step of ring traffic: a reader call with a target length, or a
writer call with a block of samples. -/
inductive RingOp where
  | read (targetLen : ℕ)
  | write (xs : List ℤ)

/-- Runs a sequence of ring operations; returns the final ring, the
list of blocks returned by the reads, and the list of sample blocks
accepted by the writer (drops at the writer excluded). -/
def runOps (r : Ring) : List RingOp → Ring × List (List ℤ) × List (List ℤ)
  | [] => (r, [], [])
  | .read t :: rest =>
    let p := r.readTo t
    let rec' := runOps p.2 rest
    (rec'.1, p.1 :: rec'.2.1, rec'.2.2)
  | .write xs :: rest =>
    let p := r.writeFrom xs
    let rec' := runOps p.1 rest
    (rec'.1, rec'.2.1, xs.take p.2 :: rec'.2.2)

/-! ### List `getD` helpers -/

lemma getD_set_self (l : List ℤ) (i : ℕ) (a : ℤ) (h : i < l.length) :
    (l.set i a).getD i 0 = a := by
  simp [List.getD_eq_getElem?_getD, List.getElem?_eq_getElem, h, List.getElem_set_self]

lemma getD_set_ne (l : List ℤ) (i j : ℕ) (a : ℤ) (h : i ≠ j) :
    (l.set i a).getD j 0 = l.getD j 0 := by
  rcases Nat.lt_or_ge j l.length with hj | hj
  · simp [List.getD_eq_getElem?_getD, List.getElem?_eq_getElem, hj, List.getElem_set_ne h]
  · rw [List.getD_eq_getElem?_getD, List.getD_eq_getElem?_getD,
      List.getElem?_eq_none_iff.2 (by simpa using hj), List.getElem?_eq_none_iff.2 hj]

lemma getD_eq_get (l : List ℤ) (i : ℕ) (h : i < l.length) :
    l.getD i 0 = l.get ⟨i, h⟩ := by
  simp [List.getD_eq_getElem?_getD, List.getElem?_eq_getElem h]

/-! ### Modular-arithmetic helpers for the circular indices -/

lemma mod_span (x s : ℕ) (h2 : x < 2 * s) :
    x % s = if x < s then x else x - s := by
  have h0 : 0 < s := by omega
  split
  · exact Nat.mod_eq_of_lt (by assumption)
  · have hge : s ≤ x := by omega
    have hx : x - s < s := by omega
    calc x % s = (x - s + s) % s := by rw [Nat.sub_add_cancel hge]
    _ = (x - s) % s := Nat.add_mod_right _ _
    _ = x - s := Nat.mod_eq_of_lt hx

/-- Residues `rd + x` and `rd + y` are distinct modulo `s` for distinct
offsets `x ≠ y` below `s`. -/
lemma mod_offset_inj (rd x y s : ℕ) (hx : x < s) (hy : y < s)
    (h : (rd + x) % s = (rd + y) % s) : x = y := by
  have h1 : x ≡ y [MOD s] := Nat.ModEq.add_left_cancel' rd h
  calc x = x % s := (Nat.mod_eq_of_lt hx).symm
  _ = y % s := h1
  _ = y := Nat.mod_eq_of_lt hy

lemma avail_after_read (rd w s m : ℕ) (hrd : rd < s) (hw : w < s)
    (hm : m ≤ (w + s - rd) % s) :
    (w + s - (rd + m) % s) % s = (w + s - rd) % s - m := by
  have h0 : 0 < s := by omega
  have hav_lt : (w + s - rd) % s < s := Nat.mod_lt _ h0
  have hm' : m < s := lt_of_le_of_lt hm hav_lt
  have hrm_lt : (rd + m) % s < s := Nat.mod_lt _ h0
  rw [mod_span (w + s - (rd + m) % s) s (by omega)]
  rw [mod_span (rd + m) s (by omega)] at *
  rw [mod_span (w + s - rd) s (by omega)] at *
  split_ifs at * <;> omega

lemma avail_after_write (rd w s n : ℕ) (hrd : rd < s) (hw : w < s)
    (hn : n ≤ s - 1 - (w + s - rd) % s) :
    ((w + n) % s + s - rd) % s = (w + s - rd) % s + n := by
  have h0 : 0 < s := by omega
  have hav_lt : (w + s - rd) % s < s := Nat.mod_lt _ h0
  have hn' : n < s := by omega
  have hwn_lt : (w + n) % s < s := Nat.mod_lt _ h0
  rw [mod_span ((w + n) % s + s - rd) s (by omega)]
  rw [mod_span (w + n) s (by omega)] at *
  rw [mod_span (w + s - rd) s (by omega)] at *
  split_ifs at * <;> omega

/-- The writer residue: the write index is the read index shifted by the
available count, modulo the ring size. -/
lemma write_eq_read_add_avail (rd w s : ℕ) (hrd : rd < s) (hw : w < s) :
    (rd + (w + s - rd) % s) % s = w := by
  have h0 : 0 < s := by omega
  have h1 : (rd + (w + s - rd) % s) % s = (rd + (w + s - rd)) % s :=
    Nat.add_mod_mod rd (w + s - rd) s
  rw [h1, show rd + (w + s - rd) = w + s by omega, Nat.add_mod_right, Nat.mod_eq_of_lt hw]

/-! ### FIFO abstraction of the ring -/

/-- `q` is the logical FIFO content of the ring: the samples written but
not yet read, in order, starting at the read index. -/
def RingInv (r : Ring) (q : List ℤ) : Prop :=
  r.read < r.size ∧ r.write < r.size ∧
  q.length = r.avail ∧
  ∀ i, i < q.length → q.getD i 0 = r.storage.getD ((r.read + i) % r.size) 0

lemma RingInv.size_pos {r : Ring} {q : List ℤ} (h : RingInv r q) : 0 < r.size :=
  lt_of_le_of_lt (Nat.zero_le _) h.1

lemma avail_lt_size (r : Ring) (h : 0 < r.size) : r.avail < r.size :=
  Nat.mod_lt _ h

lemma getD_append_left (l₁ l₂ : List ℤ) (i : ℕ) (h : i < l₁.length) :
    (l₁ ++ l₂).getD i 0 = l₁.getD i 0 := by
  rw [List.getD_eq_getElem?_getD, List.getD_eq_getElem?_getD, List.getElem?_append]
  simp [h]

lemma getD_append_right (l₁ l₂ : List ℤ) (i : ℕ) (h : l₁.length ≤ i) :
    (l₁ ++ l₂).getD i 0 = l₂.getD (i - l₁.length) 0 := by
  rw [List.getD_eq_getElem?_getD, List.getD_eq_getElem?_getD, List.getElem?_append]
  simp [Nat.not_lt.mpr h]

lemma getD_take (l : List ℤ) (n i : ℕ) (h : i < n) :
    (l.take n).getD i 0 = l.getD i 0 := by
  rw [List.getD_eq_getElem?_getD, List.getD_eq_getElem?_getD]
  simp [List.getElem?_take, h]

lemma getD_drop (l : List ℤ) (n i : ℕ) :
    (l.drop n).getD i 0 = l.getD (n + i) 0 := by
  rw [List.getD_eq_getElem?_getD, List.getD_eq_getElem?_getD, List.getElem?_drop]

lemma ext_getD (l₁ l₂ : List ℤ) (hl : l₁.length = l₂.length)
    (h : ∀ i, i < l₁.length → l₁.getD i 0 = l₂.getD i 0) : l₁ = l₂ := by
  apply List.ext_get hl
  intro n h₁ h₂
  rw [← getD_eq_get _ _ h₁, ← getD_eq_get _ _ h₂]
  exact h n h₁

/-- `readTo` returns exactly the first `min available targetLen` queued
samples and leaves the ring holding the rest of the queue. -/
theorem readTo_sim (r : Ring) (q : List ℤ) (hInv : RingInv r q) (t : ℕ) :
    (r.readTo t).1 = q.take (min q.length t) ∧
    RingInv (r.readTo t).2 (q.drop (min q.length t)) := by
  obtain ⟨hrd, hw, hlen, hq⟩ := hInv
  rcases r with ⟨st, rd, w⟩
  simp only [Ring.size, Ring.avail] at hrd hw hlen hq
  have h0 : 0 < st.length := by omega
  simp only [Ring.readTo, Ring.avail, Ring.size]
  by_cases hav : (w + st.length - rd) % st.length = 0
  · have hq0 : q = [] := List.length_eq_zero.mp (by omega)
    subst hq0
    rw [if_pos hav]
    refine ⟨by simp, hrd, hw, ?_, by simp⟩
    show (List.drop _ []).length = Ring.avail _
    simp only [List.drop_nil, List.length_nil, Ring.avail, Ring.size]
    omega
  · simp only [if_neg hav]
    set A := (w + st.length - rd) % st.length with hA
    have hAlt : A < st.length := Nat.mod_lt _ h0
    set m := min A t with hmdef
    have hmA : m ≤ A := Nat.min_le_left _ _
    have hminq : min q.length t = m := by rw [hlen]
    set first := min (st.length - rd) m with hfdef
    have hf1 : first ≤ st.length - rd := Nat.min_le_left _ _
    have hf2 : first ≤ m := Nat.min_le_right _ _
    have hfcases : first = st.length - rd ∨ first = m := by
      rw [hfdef, Nat.min_def]; split <;> simp
    have hlen1 : ((st.drop rd).take first).length = first := by
      simp only [List.length_take, List.length_drop]; omega
    have hlen2 : (st.take (m - first)).length = m - first := by
      simp only [List.length_take]; omega
    have hout : (st.drop rd).take first ++ st.take (m - first) = q.take m := by
      apply ext_getD
      · simp only [List.length_append, hlen1, hlen2, List.length_take]; omega
      · intro i hi
        have him : i < m := by
          simp only [List.length_append, hlen1, hlen2] at hi; omega
        have hiq : i < q.length := by omega
        rw [getD_take _ _ _ him, hq i hiq]
        rcases Nat.lt_or_ge i first with hif | hif
        · rw [getD_append_left _ _ _ (by omega), getD_take _ _ _ hif, getD_drop]
          have : (rd + i) % st.length = rd + i := Nat.mod_eq_of_lt (by omega)
          rw [this]
        · have hfeq : first = st.length - rd := by
            rcases hfcases with h | h
            · exact h
            · omega
          rw [getD_append_right _ _ _ (by omega), hlen1,
            getD_take _ _ _ (by omega)]
          have : (rd + i) % st.length = i - first := by
            rw [show rd + i = (i - first) + st.length by omega, Nat.add_mod_right]
            exact Nat.mod_eq_of_lt (by omega)
          rw [this]
    refine ⟨by rw [hminq]; exact hout, ?_⟩
    rw [hminq]
    refine ⟨Nat.mod_lt _ h0, hw, ?_, ?_⟩
    · simp only [List.length_drop, hlen]
      show A - m = ((w + st.length - (rd + m) % st.length) % st.length)
      rw [avail_after_read rd w st.length m hrd hw (by rw [← hA]; exact hmA), ← hA]
    · intro i hi
      simp only [List.length_drop] at hi
      rw [getD_drop, hq (m + i) (by omega)]
      show _ = st.getD (((rd + m) % st.length + i) % st.length) 0
      rw [Nat.mod_add_mod]
      congr 2
      omega

lemma writeSeq_length (st : List ℤ) (p : ℕ) (xs : List ℤ) :
    (Ring.writeSeq st p xs).length = st.length := by
  induction xs generalizing st p with
  | nil => rfl
  | cons x rest ih => rw [Ring.writeSeq, ih, List.length_set]


lemma writeSeq_getD_untouched (L : ℕ) (st : List ℤ) (p : ℕ) (xs : List ℤ) (i : ℕ)
    (hL : st.length = L)
    (h : ∀ j, j < xs.length → (p + j) % L ≠ i) :
    (Ring.writeSeq st p xs).getD i 0 = st.getD i 0 := by
  induction xs generalizing st p with
  | nil => rfl
  | cons x rest ih =>
    rw [Ring.writeSeq, hL]
    rw [ih _ _ (by rw [List.length_set, hL]) (by
      intro j hj
      rw [show p + 1 + j = p + (j + 1) by omega]
      exact h (j + 1) (by simp; omega))]
    exact getD_set_ne _ _ _ _ (by simpa using h 0 (by simp))

lemma writeSeq_getD_at (L : ℕ) (st : List ℤ) (p : ℕ) (xs : List ℤ) (j : ℕ)
    (hL : st.length = L) (h0 : 0 < L) (hj : j < xs.length)
    (hdist : ∀ j', j < j' → j' < xs.length → (p + j') % L ≠ (p + j) % L) :
    (Ring.writeSeq st p xs).getD ((p + j) % L) 0 = xs.getD j 0 := by
  induction xs generalizing st p j with
  | nil => simp at hj
  | cons x rest ih =>
    rw [Ring.writeSeq, hL]
    cases j with
    | zero =>
      rw [writeSeq_getD_untouched L _ _ _ _ (by rw [List.length_set, hL]) (by
        intro j' hj'
        rw [show p + 1 + j' = p + (j' + 1) by omega]
        exact hdist (j' + 1) (by omega) (by simp; omega))]
      simp only [Nat.add_zero]
      exact getD_set_self _ _ _ (by rw [hL]; exact Nat.mod_lt _ h0)
    | succ j₀ =>
      have := ih (st.set (p % L) x) (p + 1) j₀ (by rw [List.length_set, hL])
        (by simpa using hj)
        (by
          intro j' hjl hju
          rw [show p + 1 + j' = p + (j' + 1) by omega,
            show p + 1 + j₀ = p + (j₀ + 1) by omega]
          exact hdist (j' + 1) (by omega) (by simp; omega))
      rw [show p + 1 + j₀ = p + (j₀ + 1) by omega] at this
      rw [this]
      simp

/-- The (spec-modelled) writer accepts exactly
`min xs.length (size - 1 - queued)` samples and appends them to the
logical queue. -/
theorem writeFrom_sim (r : Ring) (q : List ℤ) (hInv : RingInv r q) (xs : List ℤ) :
    (r.writeFrom xs).2 = min xs.length (r.size - 1 - q.length) ∧
    RingInv (r.writeFrom xs).1 (q ++ xs.take (min xs.length (r.size - 1 - q.length))) := by
  obtain ⟨hrd, hw, hlen, hq⟩ := hInv
  rcases r with ⟨st, rd, w⟩
  simp only [Ring.size, Ring.avail] at hrd hw hlen hq
  have h0 : 0 < st.length := by omega
  simp only [Ring.writeFrom, Ring.size, Ring.avail]
  have hAlt : (w + st.length - rd) % st.length < st.length := Nat.mod_lt _ h0
  set A := (w + st.length - rd) % st.length with hA
  set n := min xs.length (st.length - 1 - A) with hn
  have hnfree : n ≤ st.length - 1 - A := Nat.min_le_right _ _
  have hnxs : n ≤ xs.length := Nat.min_le_left _ _
  have hmin : min xs.length (st.length - 1 - q.length) = n := by rw [hlen]
  have hwA : (rd + A) % st.length = w := write_eq_read_add_avail rd w st.length hrd hw
  have hstlen : (Ring.writeSeq st w (xs.take n)).length = st.length := writeSeq_length ..
  have htklen : (xs.take n).length = n := by simp [List.length_take]; omega
  have hinj : ∀ x y : ℕ, x < st.length → y < st.length →
      (rd + x) % st.length = (rd + y) % st.length → x = y := fun x y hx hy h =>
    mod_offset_inj rd x y st.length hx hy h
  have hwoff : ∀ j : ℕ, (w + j) % st.length = (rd + (A + j)) % st.length := by
    intro j
    conv_lhs => rw [← hwA]
    rw [Nat.mod_add_mod, Nat.add_assoc]
  rw [hmin]
  refine ⟨rfl, ?_, ?_, ?_, ?_⟩
  · show rd < (Ring.writeSeq st w (xs.take n)).length
    rw [hstlen]; exact hrd
  · show (w + n) % st.length < (Ring.writeSeq st w (xs.take n)).length
    rw [hstlen]; exact Nat.mod_lt _ h0
  · simp only [List.length_append, htklen, hlen]
    show A + n = ((w + n) % st.length + (Ring.writeSeq st w (xs.take n)).length -
      rd) % (Ring.writeSeq st w (xs.take n)).length
    rw [hstlen, avail_after_write rd w st.length n hrd hw (by rw [← hA]; exact hnfree), ← hA]
  · intro i hi
    simp only [List.length_append, htklen, hlen] at hi
    show _ = (Ring.writeSeq st w (xs.take n)).getD
      ((rd + i) % (Ring.writeSeq st w (xs.take n)).length) 0
    rw [hstlen]
    rcases Nat.lt_or_ge i q.length with hiq | hiq
    · rw [getD_append_left _ _ _ hiq, hq i hiq]
      rw [writeSeq_getD_untouched st.length _ _ _ _ rfl (by
        intro j hj
        rw [htklen] at hj
        rw [hwoff j]
        intro hcontra
        have : A + j = i := hinj _ _ (by omega) (by omega) hcontra
        omega)]
    · rw [getD_append_right _ _ _ hiq]
      have hj : i - q.length < n := by omega
      have hpos : (rd + i) % st.length = (w + (i - q.length)) % st.length := by
        rw [hwoff (i - q.length)]
        congr 1
        omega
      rw [hpos, writeSeq_getD_at st.length _ _ _ _ rfl h0 (by omega) (by
        intro j' hjl hju
        rw [htklen] at hju
        rw [hwoff j', hwoff (i - q.length)]
        intro hcontra
        have : A + j' = A + (i - q.length) := hinj _ _ (by omega) (by omega) hcontra
        omega)]

/-- Trace-level FIFO correctness: the concatenation of all samples
returned by reads, followed by what is still queued, equals the queue
at the start followed by all samples accepted by the writer. -/
theorem runOps_fifo (ops : List RingOp) (r : Ring) (q : List ℤ) (hInv : RingInv r q) :
    ∃ qf, RingInv (runOps r ops).1 qf ∧
      (runOps r ops).2.1.flatten ++ qf = q ++ (runOps r ops).2.2.flatten := by
  induction ops generalizing r q with
  | nil => exact ⟨q, hInv, by simp [runOps]⟩
  | cons op rest ih =>
    cases op with
    | read t =>
      obtain ⟨hout, hInv'⟩ := readTo_sim r q hInv t
      obtain ⟨qf, hInvf, heq⟩ := ih _ _ hInv'
      refine ⟨qf, ?_, ?_⟩
      · simpa only [runOps] using hInvf
      · simp only [runOps, List.flatten_cons]
        rw [hout, List.append_assoc, heq, ← List.append_assoc, List.take_append_drop]
    | write xs =>
      obtain ⟨hn, hInv'⟩ := writeFrom_sim r q hInv xs
      obtain ⟨qf, hInvf, heq⟩ := ih _ _ hInv'
      refine ⟨qf, ?_, ?_⟩
      · simpa only [runOps] using hInvf
      · simp only [runOps, List.flatten_cons]
        rw [hn, ← List.append_assoc, heq, List.append_assoc]

/-- The queued-but-unread samples of a ring, read off from the storage. -/
def ringQueue (r : Ring) : List ℤ :=
  (List.range r.avail).map (fun i => r.storage.getD ((r.read + i) % r.size) 0)

lemma ringQueue_inv (r : Ring) (h : r.wf) : RingInv r (ringQueue r) := by
  refine ⟨h.1, h.2, by simp [ringQueue], ?_⟩
  intro i hi
  simp only [ringQueue, List.length_map, List.length_range] at hi
  rw [getD_eq_get _ _ (by simp [ringQueue]; omega)]
  simp [ringQueue]

/-- A fresh ring (both indices zero) has an empty queue. -/
lemma ringInv_fresh (st : List ℤ) (h : 0 < st.length) :
    RingInv ⟨st, 0, 0⟩ [] := by
  refine ⟨h, h, ?_, by simp⟩
  simp [Ring.avail, Ring.size, Nat.mod_self]

/-- C5.  For the shared PCM ring consumed by `RingBuffReader`: every
`readTo` call copies exactly `min(available, target.length)` samples,
where `available = (write − read) mod N`, and advances the read pointer
by exactly that count modulo `N`; consequently the read index never
advances past the write index (the available count decreases by exactly
the count read, never below zero), the cumulative count of samples read
never exceeds the cumulative count written, and the sequence of samples
returned by reads is a prefix of the sequence written by the writer
(drops at the writer excluded, per the spec's dropped-at-writer
proviso). -/
theorem c5_ring_reader_fifo :
    (∀ (r : Ring) (t : ℕ), r.wf →
      (r.readTo t).1.length = min r.avail t ∧
      (r.readTo t).2.read = (r.read + min r.avail t) % r.size ∧
      (r.readTo t).2.write = r.write ∧
      (r.readTo t).2.avail = r.avail - min r.avail t) ∧
    (∀ (st : List ℤ) (ops : List RingOp), 0 < st.length →
      (runOps ⟨st, 0, 0⟩ ops).2.1.flatten <+: (runOps ⟨st, 0, 0⟩ ops).2.2.flatten ∧
      (runOps ⟨st, 0, 0⟩ ops).2.1.flatten.length ≤
        (runOps ⟨st, 0, 0⟩ ops).2.2.flatten.length) := by
  constructor
  · intro r t hwf
    have hInv := ringQueue_inv r hwf
    have hqlen : (ringQueue r).length = r.avail := hInv.2.2.1
    obtain ⟨hout, hInv'⟩ := readTo_sim r (ringQueue r) hInv t
    refine ⟨?_, ?_, ?_, ?_⟩
    · rw [hout, List.length_take, hqlen]
      omega
    · simp only [Ring.readTo]
      split
      · have hav0 : r.avail = 0 := by assumption
        simp [hav0, Nat.mod_eq_of_lt hwf.1]
      · rfl
    · simp only [Ring.readTo]
      split <;> rfl
    · have := hInv'.2.2.1
      rw [List.length_drop, hqlen] at this
      omega
  · intro st ops h
    obtain ⟨qf, _, heq⟩ := runOps_fifo ops ⟨st, 0, 0⟩ [] (ringInv_fresh st h)
    rw [List.nil_append] at heq
    refine ⟨⟨qf, heq⟩, ?_⟩
    rw [← heq]
    simp

/-- Witness for C5 at concrete inputs: a four-slot ring holding two
queued samples read with a larger target, and a fresh three-slot ring
run through a write-read-write-read schedule. -/
theorem c5_ring_reader_fifo_witness :
    ((⟨[5, 6, 7, 8], 3, 1⟩ : Ring).wf ∧ (0 : ℕ) < ([9, 9, 9] : List ℤ).length) ∧
    (((⟨[5, 6, 7, 8], 3, 1⟩ : Ring).readTo 4).1.length =
        min (⟨[5, 6, 7, 8], 3, 1⟩ : Ring).avail 4 ∧
      ((⟨[5, 6, 7, 8], 3, 1⟩ : Ring).readTo 4).2.read =
        ((3 : ℕ) + min (⟨[5, 6, 7, 8], 3, 1⟩ : Ring).avail 4) % (⟨[5, 6, 7, 8], 3, 1⟩ : Ring).size ∧
      ((⟨[5, 6, 7, 8], 3, 1⟩ : Ring).readTo 4).2.write = (1 : ℕ) ∧
      ((⟨[5, 6, 7, 8], 3, 1⟩ : Ring).readTo 4).2.avail =
        (⟨[5, 6, 7, 8], 3, 1⟩ : Ring).avail - min (⟨[5, 6, 7, 8], 3, 1⟩ : Ring).avail 4) ∧
    ((runOps ⟨[9, 9, 9], 0, 0⟩ [.write [1, 2], .read 1, .write [3], .read 5]).2.1.flatten <+:
        (runOps ⟨[9, 9, 9], 0, 0⟩ [.write [1, 2], .read 1, .write [3], .read 5]).2.2.flatten ∧
      (runOps ⟨[9, 9, 9], 0, 0⟩ [.write [1, 2], .read 1, .write [3], .read 5]).2.1.flatten.length ≤
        (runOps ⟨[9, 9, 9], 0, 0⟩ [.write [1, 2], .read 1, .write [3], .read 5]).2.2.flatten.length) :=
  ⟨⟨by constructor <;> decide, by decide⟩,
    c5_ring_reader_fifo.1 ⟨[5, 6, 7, 8], 3, 1⟩ 4 (by constructor <;> decide),
    c5_ring_reader_fifo.2 [9, 9, 9] [.write [1, 2], .read 1, .write [3], .read 5] (by decide)⟩

/-! ## The PCM worklet processor (`audio.worklet.js`, `PCMWorkletProcessor`)

Float samples are carried as exact rationals (`ℚ`): the processor only
divides int16 samples by 32768 and takes convex combinations for the
ramp, and no claim depends on float rounding.  The per-quantum output
`outputs[0]` is a list of `outCh` channel buffers of 128 samples; index
writes mirror the JS statement order (including the `out[1] ?? out[0]`
fallback, which aliases both stereo channels onto channel 0 when the
node has a single output channel). -/

/-- `RENDER_QUANTUM_FRAMES`. -/
def FRAMES : ℕ := 128

/-- `quantaFromMs(ms, sr) = Math.max(1, Math.ceil((ms / 1000) * sr / 128))`. -/
def quantaFromMs (ms sr : ℕ) : ℕ :=
  max 1 (Nat.ceil ((ms * sr : ℚ) / (1000 * 128)))

/-- Messages the processor posts on its port. -/
inductive Msg where
  | underrun
  | recovered
deriving DecidableEq, Repr

/-- Mutable state of `PCMWorkletProcessor`. -/
structure PcmState where
  channels : ℕ
  streamSR : ℕ
  basePrerollQ : ℕ
  targetPrerollQ : ℕ
  maxPrerollQ : ℕ
  primed : Bool
  stableBlocks : ℕ
  softUnderruns : ℕ
  hardUnderruns : ℕ
  rampMs : ℕ
  rampLen : ℕ
  rampLeft : ℕ
  needRamp : Bool
  xfFromL : ℚ
  xfFromR : ℚ
  xfFromM : ℚ
  lastL : ℚ
  lastR : ℚ
  lastM : ℚ
  reportedUnderrun : Bool
deriving Repr

/-- `processorOptions` handed to the constructor (`sab` omitted: the
ring is passed separately to `process`). -/
structure WorkletOptions where
  channels : ℤ
  streamSampleRate : Option ℕ
  prerollMs : Option ℕ
  maxPrerollMs : Option ℕ
  rampMs : Option ℕ

/-- The `PCMWorkletProcessor` constructor.  `contextSR` is the
AudioWorklet global `sampleRate`.  Mirrors the option defaulting:
`channels = Math.max(1, channels | 0 || 1)`, `streamSR` falls back to
the context rate, `prerollMs` defaults to 8, `maxPrerollMs` to 40 (and
must exceed `baseMs`), `rampMs` keeps its field initializer 8 unless a
non-negative option is given. -/
def initState (contextSR : ℕ) (o : WorkletOptions) : PcmState :=
  let ch : ℕ := (max 1 (if o.channels = 0 then 1 else o.channels)).toNat
  let streamSR := match o.streamSampleRate with
    | some v => if 0 < v then v else contextSR
    | none => contextSR
  let rampMs := match o.rampMs with
    | some v => v
    | none => 8
  let baseMs := match o.prerollMs with
    | some v => if 0 < v then v else 8
    | none => 8
  let maxMs := match o.maxPrerollMs with
    | some v => if baseMs < v then v else 40
    | none => 40
  { channels := ch
    streamSR := streamSR
    basePrerollQ := quantaFromMs baseMs streamSR
    targetPrerollQ := quantaFromMs baseMs streamSR
    maxPrerollQ := quantaFromMs maxMs streamSR
    primed := false
    stableBlocks := 0
    softUnderruns := 0
    hardUnderruns := 0
    rampMs := rampMs
    rampLen := 0
    rampLeft := 0
    needRamp := true
    xfFromL := 0, xfFromR := 0, xfFromM := 0
    lastL := 0, lastR := 0, lastM := 0
    reportedUnderrun := false }

/-- `toF32(s16) = s16 / 32768`. -/
def toF32 (x : ℤ) : ℚ := (x : ℚ) / 32768

/-- `beginRamp`: `rampLen = Math.max(1, Math.floor(streamSR * rampMs / 1000))`,
latches the crossfade source samples. -/
def beginRamp (s : PcmState) : PcmState :=
  { s with
    rampLen := max 1 (s.streamSR * s.rampMs / 1000)
    rampLeft := max 1 (s.streamSR * s.rampMs / 1000)
    xfFromL := s.lastL
    xfFromR := s.lastR
    xfFromM := s.lastM
    needRamp := false }

/-- `out[c][f] = v` (no-op when out of range, as for a JS typed array). -/
def setOut (o : List (List ℚ)) (c f : ℕ) (v : ℚ) : List (List ℚ) :=
  o.set c ((o.getD c []).set f v)

/-- `out[c][f]` (0 when out of range). -/
def getOut (o : List (List ℚ)) (c f : ℕ) : ℚ :=
  (o.getD c []).getD f 0

/-- `out[c].fill(v)` for every channel index `c ≥ c0`. -/
def fillChans (o : List (List ℚ)) (c0 : ℕ) (v : ℚ) : List (List ℚ) :=
  o.mapIdx (fun c ch => if c0 ≤ c then List.replicate FRAMES v else ch)

/-- `fillWithLast`: last-sample hold of a whole quantum. -/
def fillWithLast (s : PcmState) (outCh : ℕ) : List (List ℚ) :=
  if 2 ≤ outCh ∧ s.channels = 2 then
    [List.replicate FRAMES s.lastL, List.replicate FRAMES s.lastR] ++
      List.replicate (outCh - 2) (List.replicate FRAMES (0 : ℚ))
  else
    List.replicate outCh (List.replicate FRAMES s.lastM)

/-- `applyRampStereo(L, R, written)`: linear crossfade from the latched
samples into the first `min(written, rampLeft)` frames; `li`/`ri` are
the channel indices of `L` and `R` (equal when aliased). -/
def applyRampStereo (s : PcmState) (o : List (List ℚ)) (written li ri : ℕ) :
    List (List ℚ) × PcmState :=
  let start := s.rampLen - s.rampLeft
  let n := min written s.rampLeft
  let o' := upto n (fun k acc =>
    let a : ℚ := ((start + k + 1 : ℕ) : ℚ) / (s.rampLen : ℚ)
    let b : ℚ := 1 - a
    let acc1 := setOut acc li k (b * s.xfFromL + a * getOut acc li k)
    setOut acc1 ri k (b * s.xfFromR + a * getOut acc1 ri k)) o
  (o', { s with rampLeft := s.rampLeft - n })

/-- `applyRampMono(M, written)`. -/
def applyRampMono (s : PcmState) (o : List (List ℚ)) (written mi : ℕ) :
    List (List ℚ) × PcmState :=
  let start := s.rampLen - s.rampLeft
  let n := min written s.rampLeft
  let o' := upto n (fun k acc =>
    let a : ℚ := ((start + k + 1 : ℕ) : ℚ) / (s.rampLen : ℚ)
    let b : ℚ := 1 - a
    setOut acc mi k (b * s.xfFromM + a * getOut acc mi k)) o
  (o', { s with rampLeft := s.rampLeft - n })

/-- The emission part of `process` (stereo/mono conversion loops, ramp,
last-sample padding, zero-fill of extra channels, update of the held
samples).  `samples` is what `readTo` returned; `framesGot = got / ch`. -/
def emitQuantum (s : PcmState) (outCh : ℕ) (samples : List ℤ) (framesGot : ℕ) :
    List (List ℚ) × PcmState :=
  let out0 := List.replicate outCh (List.replicate FRAMES (0 : ℚ))
  if s.channels = 2 then
    let li := 0
    let ri := if 2 ≤ outCh then 1 else 0
    let out1 := upto framesGot (fun f acc =>
      let acc1 := setOut acc li f (toF32 (samples.getD (2 * f) 0))
      setOut acc1 ri f (toF32 (samples.getD (2 * f + 1) 0))) out0
    let pr := if 0 < s.rampLeft then applyRampStereo s out1 framesGot li ri else (out1, s)
    let padL := if framesGot ≠ 0 then getOut pr.1 li (framesGot - 1) else s.lastL
    let padR := if framesGot ≠ 0 then getOut pr.1 ri (framesGot - 1) else s.lastR
    let out3 := upto (FRAMES - framesGot) (fun j acc =>
      let acc1 := setOut acc li (framesGot + j) padL
      setOut acc1 ri (framesGot + j) padR) pr.1
    let out4 := fillChans out3 2 0
    (out4, { pr.2 with lastL := getOut out4 li (FRAMES - 1), lastR := getOut out4 ri (FRAMES - 1) })
  else
    let mi := 0
    let out1 := upto framesGot (fun f acc =>
      setOut acc mi f (toF32 (samples.getD f 0))) out0
    let pr := if 0 < s.rampLeft then applyRampMono s out1 framesGot mi else (out1, s)
    let pad := if framesGot ≠ 0 then getOut pr.1 mi (framesGot - 1) else s.lastM
    let out3 := upto (FRAMES - framesGot) (fun j acc =>
      setOut acc mi (framesGot + j) pad) pr.1
    let out4 := fillChans out3 1 0
    (out4, { pr.2 with lastM := getOut out4 mi (FRAMES - 1) })

/-- Result of one `process` call. -/
structure Quantum where
  out : List (List ℚ)
  msgs : List Msg
  state : PcmState
  ring : Ring
  got : ℕ

/-- `PCMWorkletProcessor.process` for one render quantum.  `r` is the
shared ring; `outCh = outputs[0].length`. -/
def process (s : PcmState) (r : Ring) (outCh : ℕ) : Quantum :=
  let needSamples := FRAMES * s.channels
  let av := r.avail
  if s.primed = false ∧ av < s.targetPrerollQ * needSamples then
    ⟨List.replicate outCh (List.replicate FRAMES 0), [], s, r, 0⟩
  else
    let s1 : PcmState := if s.primed then s
      else { s with
              primed := true
              needRamp := true
              stableBlocks := 0
              softUnderruns := 0
              hardUnderruns := 0 }
    let want := min (FRAMES * s1.channels) av
    let aligned := want - want % s1.channels
    if aligned = 0 then
      let out := fillWithLast s1 outCh
      let msgs := if s1.reportedUnderrun then [] else [Msg.underrun]
      ⟨out, msgs,
        { s1 with
            needRamp := true
            primed := false
            hardUnderruns := s1.hardUnderruns + 1
            targetPrerollQ := if s1.targetPrerollQ < s1.maxPrerollQ
              then s1.targetPrerollQ + 1 else s1.targetPrerollQ
            stableBlocks := 0
            softUnderruns := 0
            reportedUnderrun := true },
        r, 0⟩
    else
      let rd := r.readTo aligned
      let got := rd.1.length
      let framesGot := got / s1.channels
      let s2 : PcmState := if s1.needRamp = true ∧ s1.rampLeft = 0 then beginRamp s1 else s1
      let em := emitQuantum s2 outCh rd.1 framesGot
      if framesGot = FRAMES then
        let s4a : PcmState := { em.2 with stableBlocks := em.2.stableBlocks + 1 }
        let s4 : PcmState := if 128 ≤ s4a.stableBlocks ∧ s4a.basePrerollQ < s4a.targetPrerollQ
          then { s4a with targetPrerollQ := s4a.targetPrerollQ - 1, stableBlocks := 0 }
          else s4a
        let s5 : PcmState := { s4 with softUnderruns := 0 }
        if s5.reportedUnderrun then
          ⟨em.1, [Msg.recovered], { s5 with reportedUnderrun := false }, rd.2, got⟩
        else
          ⟨em.1, [], s5, rd.2, got⟩
      else
        let s4 : PcmState := { em.2 with
            needRamp := true
            stableBlocks := 0
            softUnderruns := em.2.softUnderruns + 1 }
        let s5 : PcmState := if 4 ≤ s4.softUnderruns ∧ s4.targetPrerollQ < s4.maxPrerollQ
          then { s4 with targetPrerollQ := s4.targetPrerollQ + 1, softUnderruns := 0 }
          else s4
        ⟨em.1, [], s5, rd.2, got⟩

/-! ### Control-field projections of the emission helpers

The ramp and emission helpers only touch the output buffers, the ramp
countdown and the held samples; all adaptive-preroll control fields pass
through unchanged. -/

lemma applyRampStereo_snd (s : PcmState) (o : List (List ℚ)) (w li ri : ℕ) :
    (applyRampStereo s o w li ri).2 = { s with rampLeft := s.rampLeft - min w s.rampLeft } :=
  rfl

lemma applyRampMono_snd (s : PcmState) (o : List (List ℚ)) (w mi : ℕ) :
    (applyRampMono s o w mi).2 = { s with rampLeft := s.rampLeft - min w s.rampLeft } :=
  rfl

@[simp] lemma emitQuantum_primed (s : PcmState) (o : ℕ) (x : List ℤ) (f : ℕ) :
    (emitQuantum s o x f).2.primed = s.primed := by
  unfold emitQuantum
  split_ifs <;> simp [applyRampStereo_snd, applyRampMono_snd]

@[simp] lemma emitQuantum_stableBlocks (s : PcmState) (o : ℕ) (x : List ℤ) (f : ℕ) :
    (emitQuantum s o x f).2.stableBlocks = s.stableBlocks := by
  unfold emitQuantum
  split_ifs <;> simp [applyRampStereo_snd, applyRampMono_snd]

@[simp] lemma emitQuantum_softUnderruns (s : PcmState) (o : ℕ) (x : List ℤ) (f : ℕ) :
    (emitQuantum s o x f).2.softUnderruns = s.softUnderruns := by
  unfold emitQuantum
  split_ifs <;> simp [applyRampStereo_snd, applyRampMono_snd]

@[simp] lemma emitQuantum_hardUnderruns (s : PcmState) (o : ℕ) (x : List ℤ) (f : ℕ) :
    (emitQuantum s o x f).2.hardUnderruns = s.hardUnderruns := by
  unfold emitQuantum
  split_ifs <;> simp [applyRampStereo_snd, applyRampMono_snd]

@[simp] lemma emitQuantum_targetPrerollQ (s : PcmState) (o : ℕ) (x : List ℤ) (f : ℕ) :
    (emitQuantum s o x f).2.targetPrerollQ = s.targetPrerollQ := by
  unfold emitQuantum
  split_ifs <;> simp [applyRampStereo_snd, applyRampMono_snd]

@[simp] lemma emitQuantum_basePrerollQ (s : PcmState) (o : ℕ) (x : List ℤ) (f : ℕ) :
    (emitQuantum s o x f).2.basePrerollQ = s.basePrerollQ := by
  unfold emitQuantum
  split_ifs <;> simp [applyRampStereo_snd, applyRampMono_snd]

@[simp] lemma emitQuantum_maxPrerollQ (s : PcmState) (o : ℕ) (x : List ℤ) (f : ℕ) :
    (emitQuantum s o x f).2.maxPrerollQ = s.maxPrerollQ := by
  unfold emitQuantum
  split_ifs <;> simp [applyRampStereo_snd, applyRampMono_snd]

@[simp] lemma emitQuantum_channels (s : PcmState) (o : ℕ) (x : List ℤ) (f : ℕ) :
    (emitQuantum s o x f).2.channels = s.channels := by
  unfold emitQuantum
  split_ifs <;> simp [applyRampStereo_snd, applyRampMono_snd]

@[simp] lemma emitQuantum_reportedUnderrun (s : PcmState) (o : ℕ) (x : List ℤ) (f : ℕ) :
    (emitQuantum s o x f).2.reportedUnderrun = s.reportedUnderrun := by
  unfold emitQuantum
  split_ifs <;> simp [applyRampStereo_snd, applyRampMono_snd]

@[simp] lemma emitQuantum_needRamp (s : PcmState) (o : ℕ) (x : List ℤ) (f : ℕ) :
    (emitQuantum s o x f).2.needRamp = s.needRamp := by
  unfold emitQuantum
  split_ifs <;> simp [applyRampStereo_snd, applyRampMono_snd]

@[simp] lemma emitQuantum_streamSR (s : PcmState) (o : ℕ) (x : List ℤ) (f : ℕ) :
    (emitQuantum s o x f).2.streamSR = s.streamSR := by
  unfold emitQuantum
  split_ifs <;> simp [applyRampStereo_snd, applyRampMono_snd]

@[simp] lemma emitQuantum_rampMs (s : PcmState) (o : ℕ) (x : List ℤ) (f : ℕ) :
    (emitQuantum s o x f).2.rampMs = s.rampMs := by
  unfold emitQuantum
  split_ifs <;> simp [applyRampStereo_snd, applyRampMono_snd]

@[simp] lemma beginRamp_primed (s : PcmState) : (beginRamp s).primed = s.primed := rfl
@[simp] lemma beginRamp_stableBlocks (s : PcmState) :
    (beginRamp s).stableBlocks = s.stableBlocks := rfl
@[simp] lemma beginRamp_softUnderruns (s : PcmState) :
    (beginRamp s).softUnderruns = s.softUnderruns := rfl
@[simp] lemma beginRamp_hardUnderruns (s : PcmState) :
    (beginRamp s).hardUnderruns = s.hardUnderruns := rfl
@[simp] lemma beginRamp_targetPrerollQ (s : PcmState) :
    (beginRamp s).targetPrerollQ = s.targetPrerollQ := rfl
@[simp] lemma beginRamp_basePrerollQ (s : PcmState) :
    (beginRamp s).basePrerollQ = s.basePrerollQ := rfl
@[simp] lemma beginRamp_maxPrerollQ (s : PcmState) :
    (beginRamp s).maxPrerollQ = s.maxPrerollQ := rfl
@[simp] lemma beginRamp_channels (s : PcmState) : (beginRamp s).channels = s.channels := rfl
@[simp] lemma beginRamp_reportedUnderrun (s : PcmState) :
    (beginRamp s).reportedUnderrun = s.reportedUnderrun := rfl
@[simp] lemma beginRamp_streamSR (s : PcmState) : (beginRamp s).streamSR = s.streamSR := rfl
@[simp] lemma beginRamp_rampMs (s : PcmState) : (beginRamp s).rampMs = s.rampMs := rfl

lemma readTo_len (r : Ring) (t : ℕ) (hwf : r.wf) :
    (r.readTo t).1.length = min r.avail t := by
  have hInv := ringQueue_inv r hwf
  obtain ⟨hout, -⟩ := readTo_sim r (ringQueue r) hInv t
  rw [hout, List.length_take, hInv.2.2.1]
  omega

/-- Unprimed and below the preroll threshold: pure silence, no state or
ring change. -/
lemma process_silence (s : PcmState) (r : Ring) (outCh : ℕ)
    (hp : s.primed = false)
    (hav : r.avail < s.targetPrerollQ * (FRAMES * s.channels)) :
    process s r outCh =
      ⟨List.replicate outCh (List.replicate FRAMES 0), [], s, r, 0⟩ := by
  simp only [process]
  rw [if_pos ⟨hp, hav⟩]

/-- Primed hard underrun (no channel-aligned sample available). -/
lemma process_hard (s : PcmState) (r : Ring) (outCh : ℕ)
    (hp : s.primed = true) (hav : r.avail < s.channels) :
    process s r outCh =
      ⟨fillWithLast s outCh,
        (if s.reportedUnderrun then [] else [Msg.underrun]),
        { s with
            needRamp := true
            primed := false
            hardUnderruns := s.hardUnderruns + 1
            targetPrerollQ := if s.targetPrerollQ < s.maxPrerollQ
              then s.targetPrerollQ + 1 else s.targetPrerollQ
            stableBlocks := 0
            softUnderruns := 0
            reportedUnderrun := true },
        r, 0⟩ := by
  have hch : 0 < s.channels := by omega
  have hcond : ¬ (s.primed = false ∧ r.avail < s.targetPrerollQ * (FRAMES * s.channels)) := by
    simp [hp]
  have hle : r.avail ≤ FRAMES * s.channels := by
    have : s.channels ≤ FRAMES * s.channels := Nat.le_mul_of_pos_left _ (by decide)
    omega
  have hwant : min (FRAMES * s.channels) r.avail = r.avail := by omega
  have hmod : r.avail % s.channels = r.avail := Nat.mod_eq_of_lt hav
  simp only [process]
  rw [if_neg hcond]
  simp [hp, hwant, hmod]

/-- Primed full-quantum delivery: a whole quantum of aligned samples is
read; the stable-streak counter advances and, at 128 with the target
above base, the target is decremented. -/
lemma process_full (s : PcmState) (r : Ring) (outCh : ℕ)
    (hp : s.primed = true) (hch : 1 ≤ s.channels) (hwf : r.wf)
    (hav : FRAMES * s.channels ≤ r.avail) :
    (process s r outCh).got = FRAMES * s.channels ∧
    (process s r outCh).state.primed = true ∧
    (process s r outCh).state.stableBlocks =
      (if 128 ≤ s.stableBlocks + 1 ∧ s.basePrerollQ < s.targetPrerollQ
        then 0 else s.stableBlocks + 1) ∧
    (process s r outCh).state.targetPrerollQ =
      (if 128 ≤ s.stableBlocks + 1 ∧ s.basePrerollQ < s.targetPrerollQ
        then s.targetPrerollQ - 1 else s.targetPrerollQ) ∧
    (process s r outCh).state.softUnderruns = 0 ∧
    (process s r outCh).state.reportedUnderrun = false ∧
    (process s r outCh).msgs = (if s.reportedUnderrun then [Msg.recovered] else []) ∧
    (process s r outCh).state.basePrerollQ = s.basePrerollQ ∧
    (process s r outCh).state.maxPrerollQ = s.maxPrerollQ ∧
    (process s r outCh).state.channels = s.channels := by
  have hcond : ¬ (s.primed = false ∧ r.avail < s.targetPrerollQ * (FRAMES * s.channels)) := by
    simp [hp]
  have hwant : min (FRAMES * s.channels) r.avail = FRAMES * s.channels := by omega
  have hmod : (FRAMES * s.channels) % s.channels = 0 := Nat.mul_mod_left _ _
  have haligned : FRAMES * s.channels - 0 ≠ 0 := by
    have : 1 * 1 ≤ FRAMES * s.channels := Nat.mul_le_mul (by decide) hch
    omega
  have hgot : (r.readTo (FRAMES * s.channels - 0)).1.length = FRAMES * s.channels := by
    rw [readTo_len r _ hwf]
    omega
  have hfg : FRAMES * s.channels / s.channels = FRAMES :=
    Nat.mul_div_cancel FRAMES (by omega)
  simp only [process]
  rw [if_neg hcond]
  simp only [hp, if_true, hwant, hmod]
  rw [if_neg haligned]
  simp only [hgot, hfg, if_pos rfl]
  by_cases hrep : s.reportedUnderrun = true <;>
    by_cases hnr : (s.needRamp = true ∧ s.rampLeft = 0) <;>
      by_cases hdec : 127 ≤ s.stableBlocks ∧ s.basePrerollQ < s.targetPrerollQ <;>
        simp [hrep, hnr, hdec, hp]

/-- Unprimed call with the preroll threshold met: the processor primes
itself (resetting the streak counters) and delivers a full quantum in
the same call. -/
lemma process_prime_deliver (s : PcmState) (r : Ring) (outCh : ℕ)
    (hp : s.primed = false) (hch : 1 ≤ s.channels) (hwf : r.wf)
    (ht : 1 ≤ s.targetPrerollQ)
    (hav : s.targetPrerollQ * (FRAMES * s.channels) ≤ r.avail) :
    (process s r outCh).got = FRAMES * s.channels ∧
    (process s r outCh).state.primed = true ∧
    (process s r outCh).state.stableBlocks = 1 ∧
    (process s r outCh).state.targetPrerollQ = s.targetPrerollQ ∧
    (process s r outCh).state.softUnderruns = 0 ∧
    (process s r outCh).state.reportedUnderrun = false ∧
    (process s r outCh).msgs = (if s.reportedUnderrun then [Msg.recovered] else []) ∧
    (process s r outCh).state.basePrerollQ = s.basePrerollQ ∧
    (process s r outCh).state.maxPrerollQ = s.maxPrerollQ ∧
    (process s r outCh).state.channels = s.channels := by
  have havn : FRAMES * s.channels ≤ r.avail := by
    have : 1 * (FRAMES * s.channels) ≤ s.targetPrerollQ * (FRAMES * s.channels) :=
      Nat.mul_le_mul_right _ ht
    omega
  have hcond : ¬ (s.primed = false ∧ r.avail < s.targetPrerollQ * (FRAMES * s.channels)) := by
    simp [hp]
    omega
  have hwant : min (FRAMES * s.channels) r.avail = FRAMES * s.channels := by omega
  have hmod : (FRAMES * s.channels) % s.channels = 0 := Nat.mul_mod_left _ _
  have haligned : FRAMES * s.channels - 0 ≠ 0 := by
    have : 1 * 1 ≤ FRAMES * s.channels := Nat.mul_le_mul (by decide) hch
    omega
  have hgot : (r.readTo (FRAMES * s.channels - 0)).1.length = FRAMES * s.channels := by
    rw [readTo_len r _ hwf]
    omega
  have hfg : FRAMES * s.channels / s.channels = FRAMES :=
    Nat.mul_div_cancel FRAMES (by omega)
  simp only [process]
  rw [if_neg hcond]
  simp only [hp, Bool.false_eq_true, if_false, hwant, hmod]
  rw [if_neg haligned]
  simp only [hgot, hfg, if_pos rfl]
  by_cases hrep : s.reportedUnderrun = true <;>
    by_cases hnr : s.rampLeft = 0 <;>
      simp [hrep, hnr, hp]

/-- Repeated `process` calls; `rings n` is the ring state the `n`-th
call observes (the writer refills the ring between calls). -/
def iterProcess (rings : ℕ → Ring) (outCh : ℕ) (s : PcmState) : ℕ → PcmState
  | 0 => s
  | n + 1 => (process (iterProcess rings outCh s n) (rings n) outCh).state

lemma iterProcess_add (rings : ℕ → Ring) (outCh : ℕ) (s : PcmState) (m : ℕ) :
    ∀ k, iterProcess rings outCh s (m + k) =
      iterProcess (fun i => rings (m + i)) outCh (iterProcess rings outCh s m) k
  | 0 => rfl
  | k + 1 => by
    rw [show m + (k + 1) = (m + k) + 1 by omega]
    show (process (iterProcess rings outCh s (m + k)) (rings (m + k)) outCh).state = _
    rw [iterProcess_add rings outCh s m k]
    rfl

/-- A streak of full-quantum deliveries short of 128 advances
`stableBlocks` one per call and leaves the target untouched. -/
lemma iter_stable (rings : ℕ → Ring) (outCh : ℕ) :
    ∀ (k : ℕ) (s : PcmState), s.primed = true → 1 ≤ s.channels →
    (∀ n, n < k → (rings n).wf ∧ FRAMES * s.channels ≤ (rings n).avail) →
    s.stableBlocks + k ≤ 127 →
    (iterProcess rings outCh s k).primed = true ∧
    (iterProcess rings outCh s k).stableBlocks = s.stableBlocks + k ∧
    (iterProcess rings outCh s k).targetPrerollQ = s.targetPrerollQ ∧
    (iterProcess rings outCh s k).basePrerollQ = s.basePrerollQ ∧
    (iterProcess rings outCh s k).maxPrerollQ = s.maxPrerollQ ∧
    (iterProcess rings outCh s k).channels = s.channels := by
  intro k
  induction k with
  | zero => intro s hp hch _ _; exact ⟨hp, by simp [iterProcess], rfl, rfl, rfl, rfl⟩
  | succ k ih =>
    intro s hp hch hr hk
    obtain ⟨hpk, hstk, htk, hbk, hmk, hck⟩ :=
      ih s hp hch (fun n hn => hr n (by omega)) (by omega)
    have hfull := process_full (iterProcess rings outCh s k) (rings k) outCh hpk
      (by omega) (hr k (by omega)).1 (by rw [hck]; exact (hr k (by omega)).2)
    obtain ⟨-, hfp, hfs, hft, -, -, -, hfb, hfm, hfc⟩ := hfull
    have hno : ¬ (128 ≤ (iterProcess rings outCh s k).stableBlocks + 1 ∧
        (iterProcess rings outCh s k).basePrerollQ <
          (iterProcess rings outCh s k).targetPrerollQ) := by
      intro hcontra
      omega
    refine ⟨hfp, ?_, ?_, by rw [show iterProcess rings outCh s (k+1) =
        (process (iterProcess rings outCh s k) (rings k) outCh).state from rfl, hfb, hbk],
      by rw [show iterProcess rings outCh s (k+1) =
        (process (iterProcess rings outCh s k) (rings k) outCh).state from rfl, hfm, hmk],
      by rw [show iterProcess rings outCh s (k+1) =
        (process (iterProcess rings outCh s k) (rings k) outCh).state from rfl, hfc, hck]⟩
    · show (process (iterProcess rings outCh s k) (rings k) outCh).state.stableBlocks = _
      rw [hfs, if_neg hno, hstk]
      omega
    · show (process (iterProcess rings outCh s k) (rings k) outCh).state.targetPrerollQ = _
      rw [hft, if_neg hno, htk]

/-- C1.  For every render quantum: if the worklet is not primed and the
available sample count is below `targetPrerollQuanta × 128 × channels`,
every output channel is all zeros and the ring's read index (indeed the
whole ring and processor state) is unchanged; once the available count
reaches that threshold the worklet becomes primed and consumes a full
quantum of `128 × channels` ring samples.  With no `prerollMs` option,
the initial target equals `ceil(8 × streamSampleRate / (1000 × 128))`. -/
theorem c1_worklet_priming :
    (∀ (s : PcmState) (r : Ring) (outCh : ℕ), s.primed = false →
      (r.avail < s.targetPrerollQ * (FRAMES * s.channels) →
        (process s r outCh).out = List.replicate outCh (List.replicate FRAMES 0) ∧
        (process s r outCh).ring = r ∧
        (process s r outCh).got = 0 ∧
        (process s r outCh).state = s) ∧
      (s.targetPrerollQ * (FRAMES * s.channels) ≤ r.avail → 1 ≤ s.targetPrerollQ →
        1 ≤ s.channels → r.wf →
        (process s r outCh).state.primed = true ∧
        (process s r outCh).got = FRAMES * s.channels)) ∧
    (∀ (contextSR : ℕ) (c : ℤ) (sr : ℕ) (mopt ropt : Option ℕ), 0 < sr →
      (initState contextSR ⟨c, some sr, none, mopt, ropt⟩).targetPrerollQ =
        Nat.ceil (((8 : ℕ) * sr : ℚ) / (1000 * 128))) := by
  refine ⟨fun s r outCh hp => ⟨fun hav => ?_, fun hav ht hch hwf => ?_⟩,
    fun cs c sr mo ro hsr => ?_⟩
  · rw [process_silence s r outCh hp hav]
    exact ⟨rfl, rfl, rfl, rfl⟩
  · have h := process_prime_deliver s r outCh hp hch hwf ht hav
    exact ⟨h.2.1, h.1⟩
  · simp only [initState, quantaFromMs]
    rw [if_pos hsr]
    have hpos : (0 : ℚ) < ((8 : ℕ) : ℚ) * (sr : ℚ) / (1000 * 128) := by positivity
    rw [max_eq_right (Nat.one_le_ceil_iff.mpr hpos)]

/-- Default worklet state at a 48 kHz stream (no `prerollMs`,
`maxPrerollMs` or `rampMs` options): `targetPrerollQ = 3`. -/
def c1s : PcmState := initState 48000 ⟨2, some 48000, none, none, none⟩

/-- A ring with only 4 samples available (below the 768-sample preroll). -/
def c1rlow : Ring := ⟨List.replicate 8 0, 0, 4⟩

/-- A ring with 800 samples available (above the 768-sample preroll). -/
def c1rhigh : Ring := ⟨List.replicate 2048 0, 0, 800⟩

lemma quantaFromMs_8_48000 : quantaFromMs 8 48000 = 3 := by
  have h : ((8 : ℕ) : ℚ) * ((48000 : ℕ) : ℚ) / (1000 * 128) = 3 := by norm_num
  unfold quantaFromMs
  rw [h]
  simp

lemma c1s_target : c1s.targetPrerollQ = 3 := by
  simp only [c1s, initState]
  rw [if_pos (by decide : (0:ℕ) < 48000)]
  exact quantaFromMs_8_48000

lemma c1s_channels : c1s.channels = 2 := by
  simp only [c1s, initState]
  decide

lemma c1rlow_avail : c1rlow.avail = 4 := by
  simp [c1rlow, Ring.avail, Ring.size]

lemma c1rhigh_size : c1rhigh.size = 2048 := List.length_replicate 2048 0

lemma ring_avail_eq (r : Ring) : r.avail = (r.write + r.size - r.read) % r.size := rfl

lemma c1rhigh_read : c1rhigh.read = 0 := rfl

lemma c1rhigh_write : c1rhigh.write = 800 := rfl

lemma c1rhigh_avail : c1rhigh.avail = 800 := by
  rw [ring_avail_eq, c1rhigh_read, c1rhigh_write, c1rhigh_size]

lemma c1rhigh_wf : c1rhigh.wf := by
  refine ⟨?_, ?_⟩ <;> simp only [c1rhigh_read, c1rhigh_write, c1rhigh_size] <;> decide

/-- Witness for C1 at a 48 kHz stereo stream. -/
theorem c1_worklet_priming_witness :
    (c1s.primed = false ∧
      c1rlow.avail < c1s.targetPrerollQ * (FRAMES * c1s.channels) ∧
      c1s.targetPrerollQ * (FRAMES * c1s.channels) ≤ c1rhigh.avail ∧
      1 ≤ c1s.targetPrerollQ ∧ 1 ≤ c1s.channels ∧ c1rhigh.wf ∧ (0 : ℕ) < 48000) ∧
    ((process c1s c1rlow 2).out = List.replicate 2 (List.replicate FRAMES 0) ∧
      (process c1s c1rlow 2).ring = c1rlow ∧
      (process c1s c1rlow 2).got = 0 ∧
      (process c1s c1rlow 2).state = c1s) ∧
    ((process c1s c1rhigh 2).state.primed = true ∧
      (process c1s c1rhigh 2).got = FRAMES * c1s.channels) ∧
    (initState 48000 ⟨2, some 48000, none, none, none⟩).targetPrerollQ =
      Nat.ceil (((8 : ℕ) * 48000 : ℚ) / (1000 * 128)) := by
  have hlow : c1rlow.avail < c1s.targetPrerollQ * (FRAMES * c1s.channels) := by
    rw [c1rlow_avail, c1s_target, c1s_channels]
    decide
  have hhigh : c1s.targetPrerollQ * (FRAMES * c1s.channels) ≤ c1rhigh.avail := by
    rw [c1rhigh_avail, c1s_target, c1s_channels]
    decide
  have ht1 : 1 ≤ c1s.targetPrerollQ := by rw [c1s_target]; decide
  have hc1 : 1 ≤ c1s.channels := by rw [c1s_channels]; decide
  exact ⟨⟨rfl, hlow, hhigh, ht1, hc1, c1rhigh_wf, by decide⟩,
    (c1_worklet_priming.1 c1s c1rlow 2 rfl).1 hlow,
    (c1_worklet_priming.1 c1s c1rhigh 2 rfl).2 hhigh ht1 hc1 c1rhigh_wf,
    c1_worklet_priming.2 48000 2 48000 none none (by decide)⟩

/-- C9.  The claim (and the constructor's own inline comment) say the
default crossfade is 5 ms; the field initializer in the code is
`rampMs = 8`, so with no `rampMs` option the first `beginRamp` at a
48 kHz stream yields `rampLen = max(1, floor(48000 × 8 / 1000)) = 384`
samples, not `max(1, floor(48000 × 5 / 1000)) = 240`. -/
theorem c9_ramp_default :
    (initState 48000 ⟨2, some 48000, none, none, none⟩).rampMs = 8 ∧
    (beginRamp (initState 48000 ⟨2, some 48000, none, none, none⟩)).rampLen =
      max 1 ((initState 48000 ⟨2, some 48000, none, none, none⟩).streamSR * 8 / 1000) ∧
    (beginRamp (initState 48000 ⟨2, some 48000, none, none, none⟩)).rampLen = 384 ∧
    max 1 (48000 * 5 / 1000) = 240 ∧
    (beginRamp (initState 48000 ⟨2, some 48000, none, none, none⟩)).rampLen ≠ 240 := by
  have hsr : (initState 48000 ⟨2, some 48000, none, none, none⟩).streamSR = 48000 := by
    simp only [initState]
    decide
  have hms : (initState 48000 ⟨2, some 48000, none, none, none⟩).rampMs = 8 := by
    simp only [initState]
  have hlen : (beginRamp (initState 48000 ⟨2, some 48000, none, none, none⟩)).rampLen = 384 := by
    simp only [beginRamp, hsr, hms]
    decide
  refine ⟨hms, ?_, hlen, by decide, by rw [hlen]; decide⟩
  simp only [beginRamp, hsr, hms]

set_option maxHeartbeats 2000000 in
/-- An `underrun` message is posted only with the reported-flag clear
(and sets it); a `recovered` message is posted only with the flag set
(and clears it).  Hence no second `underrun` before a `recovered`. -/
lemma process_msgs_flag (s : PcmState) (r : Ring) (outCh : ℕ) :
    (Msg.underrun ∈ (process s r outCh).msgs →
      s.reportedUnderrun = false ∧ (process s r outCh).state.reportedUnderrun = true) ∧
    (Msg.recovered ∈ (process s r outCh).msgs →
      s.reportedUnderrun = true ∧ (process s r outCh).state.reportedUnderrun = false) := by
  simp only [process]
  split_ifs <;> simp_all

/-- C2.  Adaptive preroll of the primed consumer: (a) a hard underrun
(zero aligned samples) bumps `targetPrerollQuanta` by exactly 1 unless
it already equals `maxPrerollQuanta`, re-enters priming, and posts
`underrun` only when none is outstanding; (b) the 128th consecutive
full-quantum delivery while the target exceeds base decrements the
target by exactly 1; (c) `underrun`/`recovered` messages strictly
alternate through the reported-underrun flag; (d) from
`basePrerollQuanta = targetPrerollQuanta = 3`, one hard underrun yields
target 4 and 128 subsequent full quanta return it to 3. -/
theorem c2_adaptive_preroll :
    (∀ (s : PcmState) (r : Ring) (outCh : ℕ), s.primed = true → r.avail < s.channels →
      s.targetPrerollQ ≤ s.maxPrerollQ →
      (process s r outCh).state.targetPrerollQ =
        (if s.targetPrerollQ = s.maxPrerollQ then s.targetPrerollQ else s.targetPrerollQ + 1) ∧
      (process s r outCh).state.primed = false ∧
      (process s r outCh).msgs = (if s.reportedUnderrun then [] else [Msg.underrun]) ∧
      (process s r outCh).state.reportedUnderrun = true) ∧
    (∀ (s : PcmState) (r : Ring) (outCh : ℕ), s.primed = true → 1 ≤ s.channels → r.wf →
      FRAMES * s.channels ≤ r.avail → 127 ≤ s.stableBlocks →
      s.basePrerollQ < s.targetPrerollQ →
      (process s r outCh).state.targetPrerollQ = s.targetPrerollQ - 1 ∧
      (process s r outCh).state.stableBlocks = 0) ∧
    (∀ (s : PcmState) (r : Ring) (outCh : ℕ),
      (Msg.underrun ∈ (process s r outCh).msgs →
        s.reportedUnderrun = false ∧ (process s r outCh).state.reportedUnderrun = true) ∧
      (Msg.recovered ∈ (process s r outCh).msgs →
        s.reportedUnderrun = true ∧ (process s r outCh).state.reportedUnderrun = false)) ∧
    (∀ (s : PcmState) (rings : ℕ → Ring) (outCh : ℕ),
      s.primed = true → s.basePrerollQ = 3 → s.targetPrerollQ = 3 → 4 ≤ s.maxPrerollQ →
      1 ≤ s.channels → (rings 0).avail < s.channels →
      (∀ n, 1 ≤ n → n ≤ 128 → (rings n).wf ∧ 4 * (FRAMES * s.channels) ≤ (rings n).avail) →
      (iterProcess rings outCh s 1).targetPrerollQ = 4 ∧
      (iterProcess rings outCh s 129).targetPrerollQ = 3) := by
  refine ⟨?_, ?_, process_msgs_flag, ?_⟩
  · intro s r outCh hp hav hle
    rw [show (process s r outCh).state =
      (process s r outCh).state from rfl, process_hard s r outCh hp hav]
    refine ⟨?_, rfl, rfl, rfl⟩
    show (if s.targetPrerollQ < s.maxPrerollQ then s.targetPrerollQ + 1
      else s.targetPrerollQ) = _
    split_ifs <;> omega
  · intro s r outCh hp hch hwf hav hst hbt
    obtain ⟨-, -, hfs, hft, -, -, -, -, -, -⟩ := process_full s r outCh hp hch hwf hav
    have hcond : 128 ≤ s.stableBlocks + 1 ∧ s.basePrerollQ < s.targetPrerollQ :=
      ⟨by omega, hbt⟩
    rw [hft, if_pos hcond, hfs, if_pos hcond]
    exact ⟨rfl, rfl⟩
  · intro s rings outCh hp hb ht hm hch h0 hr
    -- step 1: the hard underrun takes the target from 3 to 4 and unprimes
    have h1eq : iterProcess rings outCh s 1 = (process s (rings 0) outCh).state := rfl
    have hstep1 := process_hard s (rings 0) outCh hp h0
    have hs1 : iterProcess rings outCh s 1 =
        { s with
            needRamp := true
            primed := false
            hardUnderruns := s.hardUnderruns + 1
            targetPrerollQ := if s.targetPrerollQ < s.maxPrerollQ
              then s.targetPrerollQ + 1 else s.targetPrerollQ
            stableBlocks := 0
            softUnderruns := 0
            reportedUnderrun := true } := by
      rw [h1eq, hstep1]
    have ht1 : (iterProcess rings outCh s 1).targetPrerollQ = 4 := by
      rw [hs1]
      show (if s.targetPrerollQ < s.maxPrerollQ then s.targetPrerollQ + 1
        else s.targetPrerollQ) = 4
      rw [if_pos (by omega)]
      omega
    refine ⟨ht1, ?_⟩
    -- step 2: re-priming delivers a full quantum and starts a fresh streak
    have h2eq : iterProcess rings outCh s 2 =
        (process (iterProcess rings outCh s 1) (rings 1) outCh).state := rfl
    have hs1primed : (iterProcess rings outCh s 1).primed = false := by rw [hs1]
    have hs1ch : (iterProcess rings outCh s 1).channels = s.channels := by rw [hs1]
    have hs1base : (iterProcess rings outCh s 1).basePrerollQ = s.basePrerollQ := by rw [hs1]
    have hs1max : (iterProcess rings outCh s 1).maxPrerollQ = s.maxPrerollQ := by rw [hs1]
    have hpd := process_prime_deliver (iterProcess rings outCh s 1) (rings 1) outCh
      hs1primed (by rw [hs1ch]; omega) (hr 1 (by omega) (by omega)).1
      (by rw [ht1]; omega)
      (by
        rw [ht1, hs1ch]
        exact (hr 1 (by omega) (by omega)).2)
    obtain ⟨-, h2p, h2st, h2t, -, -, -, h2b, h2m, h2c⟩ := hpd
    rw [← h2eq] at h2p h2st h2t h2b h2m h2c
    rw [ht1] at h2t
    rw [hs1base, hb] at h2b
    rw [hs1max] at h2m
    rw [hs1ch] at h2c
    -- steps 3..128: the streak grows to 127 without touching the target
    have h129 : iterProcess rings outCh s 129 =
        iterProcess (fun i => rings (2 + i)) outCh (iterProcess rings outCh s 2) 127 := by
      rw [show (129 : ℕ) = 2 + 127 by omega, iterProcess_add]
    have hstab := iter_stable (fun i => rings (2 + i)) outCh 126 (iterProcess rings outCh s 2)
      h2p (by omega)
      (by
        intro n hn
        refine ⟨(hr (2 + n) (by omega) (by omega)).1, ?_⟩
        rw [h2c]
        have h4 : FRAMES * s.channels ≤ 4 * (FRAMES * s.channels) :=
          Nat.le_mul_of_pos_left _ (by decide)
        exact le_trans h4 (hr (2 + n) (by omega) (by omega)).2)
      (by omega)
    obtain ⟨h126p, h126st, h126t, h126b, h126m, h126c⟩ := hstab
    rw [h2st] at h126st
    rw [h2t] at h126t
    rw [h2b] at h126b
    rw [h2c] at h126c
    -- step 129: the 128th full quantum decrements the target back to 3
    have hlast : iterProcess (fun i => rings (2 + i)) outCh (iterProcess rings outCh s 2) 127 =
        (process (iterProcess (fun i => rings (2 + i)) outCh (iterProcess rings outCh s 2) 126)
          (rings 128) outCh).state := rfl
    obtain ⟨-, -, -, hftgt, -, -, -, -, -, -⟩ :=
      process_full (iterProcess (fun i => rings (2 + i)) outCh (iterProcess rings outCh s 2) 126)
        (rings 128) outCh h126p (by omega) (hr 128 (by omega) (by omega)).1
        (by
          rw [h126c]
          have h4 : FRAMES * s.channels ≤ 4 * (FRAMES * s.channels) :=
            Nat.le_mul_of_pos_left _ (by decide)
          exact le_trans h4 (hr 128 (by omega) (by omega)).2)
    rw [h129, hlast, hftgt, if_pos ⟨by omega, by omega⟩, h126t]

/-- A primed mono consumer at base = target = 3, max 15, no underrun
outstanding. -/
def c2sA : PcmState :=
  { channels := 1, streamSR := 48000, basePrerollQ := 3, targetPrerollQ := 3
    maxPrerollQ := 15, primed := true, stableBlocks := 0, softUnderruns := 0
    hardUnderruns := 0, rampMs := 8, rampLen := 0, rampLeft := 0, needRamp := false
    xfFromL := 0, xfFromR := 0, xfFromM := 0, lastL := 0, lastR := 0, lastM := 0
    reportedUnderrun := false }

/-- The same consumer with a 127-call stable streak and a raised target. -/
def c2sB : PcmState := { c2sA with stableBlocks := 127, targetPrerollQ := 4 }

/-- An empty ring (hard underrun). -/
def c2rA : Ring := ⟨List.replicate 4 0, 0, 0⟩

/-- A ring holding 520 samples. -/
def c2rB : Ring := ⟨List.replicate 600 0, 0, 520⟩

/-- Ring schedule: empty on the first call, amply filled afterwards. -/
def c2rings : ℕ → Ring := fun n => if n = 0 then c2rA else c2rB

lemma c2rB_size : c2rB.size = 600 := List.length_replicate 600 0

lemma c2rB_avail : c2rB.avail = 520 := by
  rw [ring_avail_eq, show c2rB.write = 520 from rfl, show c2rB.read = 0 from rfl, c2rB_size]

lemma c2rB_wf : c2rB.wf := by
  refine ⟨?_, ?_⟩ <;>
    simp only [show c2rB.read = 0 from rfl, show c2rB.write = 520 from rfl, c2rB_size] <;>
    decide

/-- Witness for C2: one hard underrun on an empty ring, a 128th full
quantum from a filled ring, and the full 3 → 4 → 3 schedule. -/
theorem c2_adaptive_preroll_witness :
    (c2sA.primed = true ∧ c2rA.avail < c2sA.channels ∧
      c2sA.targetPrerollQ ≤ c2sA.maxPrerollQ ∧
      c2sB.primed = true ∧ 1 ≤ c2sB.channels ∧ c2rB.wf ∧
      FRAMES * c2sB.channels ≤ c2rB.avail ∧ 127 ≤ c2sB.stableBlocks ∧
      c2sB.basePrerollQ < c2sB.targetPrerollQ) ∧
    ((process c2sA c2rA 1).state.targetPrerollQ =
        (if c2sA.targetPrerollQ = c2sA.maxPrerollQ then c2sA.targetPrerollQ
          else c2sA.targetPrerollQ + 1) ∧
      (process c2sA c2rA 1).state.primed = false ∧
      (process c2sA c2rA 1).msgs =
        (if c2sA.reportedUnderrun then [] else [Msg.underrun]) ∧
      (process c2sA c2rA 1).state.reportedUnderrun = true) ∧
    ((process c2sB c2rB 1).state.targetPrerollQ = c2sB.targetPrerollQ - 1 ∧
      (process c2sB c2rB 1).state.stableBlocks = 0) ∧
    ((Msg.underrun ∈ (process c2sA c2rA 1).msgs →
        c2sA.reportedUnderrun = false ∧
        (process c2sA c2rA 1).state.reportedUnderrun = true) ∧
      (Msg.recovered ∈ (process c2sA c2rA 1).msgs →
        c2sA.reportedUnderrun = true ∧
        (process c2sA c2rA 1).state.reportedUnderrun = false)) ∧
    ((iterProcess c2rings 1 c2sA 1).targetPrerollQ = 4 ∧
      (iterProcess c2rings 1 c2sA 129).targetPrerollQ = 3) := by
  have hBav : FRAMES * c2sB.channels ≤ c2rB.avail := by
    rw [c2rB_avail]
    decide
  have hr : ∀ n, 1 ≤ n → n ≤ 128 →
      (c2rings n).wf ∧ 4 * (FRAMES * c2sA.channels) ≤ (c2rings n).avail := by
    intro n h1 h2
    have hn : ¬ n = 0 := by omega
    simp only [c2rings, if_neg hn]
    refine ⟨c2rB_wf, ?_⟩
    rw [c2rB_avail]
    decide
  have h0 : (c2rings 0).avail < c2sA.channels := by decide
  exact ⟨⟨rfl, by decide, by decide, rfl, by decide, c2rB_wf, hBav, by decide, by decide⟩,
    c2_adaptive_preroll.1 c2sA c2rA 1 rfl (by decide) (by decide),
    c2_adaptive_preroll.2.1 c2sB c2rB 1 rfl (by decide) c2rB_wf hBav (by decide) (by decide),
    c2_adaptive_preroll.2.2.1 c2sA c2rA 1,
    c2_adaptive_preroll.2.2.2 c2sA c2rings 1 rfl rfl rfl (by decide) (by decide) h0 hr⟩

/-! ## `CarplayService` AudioData routing (main process)

The driver `message` handler's `AudioData` branch: a message carrying a
`data` payload is forwarded in ≤ 64 KiB chunks (plus a one-shot
`audioInfo` event); a message carrying a command and no data drives the
Microphone.  `decodeTypeMap` lives in the messages module (not under
`src/`), so the presence of metadata for a decode type is an oracle
parameter `metaKnown`. -/

/-- The audio in-band commands relevant to the session service (from
the protocol's `AudioCommand` enum). -/
inductive AudioCommand where
  | audioOutputStart
  | audioOutputStop
  | audioSiriStart
  | audioSiriStop
  | audioPhonecallStart
  | audioPhonecallStop
  | audioNaviStart
  | other (value : ℕ)
deriving DecidableEq, Repr

/-- An incoming `AudioData` message (fields the handler reads). -/
structure AudioMsg where
  decodeType : ℕ
  audioType : ℕ
  command : Option AudioCommand
  data : Option (List ℤ)

/-- Session-service state touched by the AudioData branch. -/
structure ServiceState where
  micRunning : Bool
  audioInfoSent : Bool
deriving DecidableEq, Repr

/-- Observable effects of one AudioData message. -/
inductive SvcEv where
  | chunkSent (chunk : List ℤ)
  | audioInfo
  | micStart
  | micStop
deriving DecidableEq, Repr

/-- `sendChunked`: the payload split into `chunkSize`-sample slices
(the empty payload yields no chunk; `chunkSize = 0`, which the source
never passes, yields none rather than looping forever). -/
def chunksOf (size : ℕ) (data : List ℤ) : List (List ℤ) :=
  if h : data = [] ∨ size = 0 then []
  else data.take size :: chunksOf size (data.drop size)
termination_by data.length
decreasing_by
  push_neg at h
  simp only [List.length_drop]
  have : 0 < data.length := List.length_pos.mpr h.1
  omega

/-- The AudioData branch of the `CarplayService` driver-message
handler. -/
def audioHandler (audioTransferMode : Bool) (metaKnown : ℕ → Bool)
    (st : ServiceState) (msg : AudioMsg) : ServiceState × List SvcEv :=
  match msg.data with
  | some d =>
    let chunkEvs := (chunksOf 65536 d).map SvcEv.chunkSent
    if st.audioInfoSent = false ∧ metaKnown msg.decodeType then
      ({ st with audioInfoSent := true }, chunkEvs ++ [SvcEv.audioInfo])
    else (st, chunkEvs)
  | none =>
    match msg.command with
    | some c =>
      if c = AudioCommand.audioSiriStart ∨ c = AudioCommand.audioPhonecallStart then
        if audioTransferMode then (st, [])
        else ({ st with micRunning := true }, [SvcEv.micStart])
      else if c = AudioCommand.audioSiriStop ∨ c = AudioCommand.audioPhonecallStop then
        ({ st with micRunning := false }, [SvcEv.micStop])
      else (st, [])
    | none => (st, [])

/-- Folding a sequence of AudioData messages through the handler. -/
def audioHandlerRun (audioTransferMode : Bool) (metaKnown : ℕ → Bool)
    (st : ServiceState) : List AudioMsg → ServiceState
  | [] => st
  | m :: rest =>
    audioHandlerRun audioTransferMode metaKnown
      (audioHandler audioTransferMode metaKnown st m).1 rest

lemma chunksOf_flatten (size : ℕ) (hs : 0 < size) (d : List ℤ) :
    (chunksOf size d).flatten = d := by
  have key : ∀ (n : ℕ) (d : List ℤ), d.length ≤ n → (chunksOf size d).flatten = d := by
    intro n
    induction n with
    | zero =>
      intro d hd
      have hnil : d = [] := List.length_eq_zero.mp (by omega)
      rw [chunksOf]
      simp [hnil]
    | succ n ih =>
      intro d hd
      rw [chunksOf]
      split
      · rename_i h
        rcases h with h | h
        · simp [h]
        · omega
      · rename_i h
        push_neg at h
        rw [List.flatten_cons, ih (d.drop size) (by
          simp only [List.length_drop]
          have : 0 < d.length := List.length_pos.mpr h.1
          omega)]
        exact List.take_append_drop _ _
  exact key d.length d le_rfl

/-- C3.  An AudioData command message with `AudioSiriStart` or
`AudioPhonecallStart` starts the Microphone iff `audioTransferMode` is
false; `AudioSiriStop`/`AudioPhonecallStop` stops it; and with
`audioTransferMode = true` the Microphone remains stopped across any
sequence of AudioData messages. -/
theorem c3_siri_mic_routing :
    (∀ (atm : Bool) (mk : ℕ → Bool) (st : ServiceState) (msg : AudioMsg),
      msg.data = none →
      (msg.command = some AudioCommand.audioSiriStart ∨
        msg.command = some AudioCommand.audioPhonecallStart) →
      ((audioHandler atm mk st msg).1.micRunning =
        (if atm then st.micRunning else true)) ∧
      (SvcEv.micStart ∈ (audioHandler atm mk st msg).2 ↔ atm = false)) ∧
    (∀ (atm : Bool) (mk : ℕ → Bool) (st : ServiceState) (msg : AudioMsg),
      msg.data = none →
      (msg.command = some AudioCommand.audioSiriStop ∨
        msg.command = some AudioCommand.audioPhonecallStop) →
      (audioHandler atm mk st msg).1.micRunning = false ∧
      SvcEv.micStop ∈ (audioHandler atm mk st msg).2) ∧
    (∀ (mk : ℕ → Bool) (st : ServiceState) (msgs : List AudioMsg),
      st.micRunning = false →
      (audioHandlerRun true mk st msgs).micRunning = false) := by
  refine ⟨?_, ?_, ?_⟩
  · intro atm mk st msg hd hc
    rcases hc with hc | hc <;> cases atm <;> simp [audioHandler, hd, hc]
  · intro atm mk st msg hd hc
    rcases hc with hc | hc <;> simp [audioHandler, hd, hc]
  · intro mk st msgs
    induction msgs generalizing st with
    | nil => intro h; exact h
    | cons m rest ih =>
      intro h
      refine ih _ ?_
      cases hd : m.data with
      | some d => simp only [audioHandler, hd]; split_ifs <;> simpa
      | none =>
        cases hc : m.command with
        | none => simpa [audioHandler, hd, hc]
        | some c => simp only [audioHandler, hd, hc]; split_ifs <;> simpa
  
/-- Witness for C3: Siri start/stop at both transfer modes. -/
theorem c3_siri_mic_routing_witness :
    ((⟨5, 1, some AudioCommand.audioSiriStart, none⟩ : AudioMsg).data = none ∧
      (⟨5, 1, some AudioCommand.audioSiriStart, none⟩ : AudioMsg).command =
        some AudioCommand.audioSiriStart ∧
      (⟨5, 1, some AudioCommand.audioSiriStop, none⟩ : AudioMsg).data = none ∧
      (⟨false, false⟩ : ServiceState).micRunning = false) ∧
    (((audioHandler false (fun _ => true) ⟨false, false⟩
          ⟨5, 1, some AudioCommand.audioSiriStart, none⟩).1.micRunning =
        (if false then (⟨false, false⟩ : ServiceState).micRunning else true)) ∧
      (SvcEv.micStart ∈ (audioHandler false (fun _ => true) ⟨false, false⟩
          ⟨5, 1, some AudioCommand.audioSiriStart, none⟩).2 ↔ false = false)) ∧
    ((audioHandler true (fun _ => true) ⟨false, false⟩
        ⟨5, 1, some AudioCommand.audioSiriStop, none⟩).1.micRunning = false ∧
      SvcEv.micStop ∈ (audioHandler true (fun _ => true) ⟨false, false⟩
        ⟨5, 1, some AudioCommand.audioSiriStop, none⟩).2) ∧
    (audioHandlerRun true (fun _ => true) ⟨false, false⟩
        [⟨5, 1, some AudioCommand.audioSiriStart, none⟩,
          ⟨5, 1, some AudioCommand.audioSiriStop, none⟩]).micRunning = false :=
  ⟨⟨rfl, rfl, rfl, rfl⟩,
    c3_siri_mic_routing.1 false (fun _ => true) ⟨false, false⟩
      ⟨5, 1, some AudioCommand.audioSiriStart, none⟩ rfl (Or.inl rfl),
    c3_siri_mic_routing.2.1 true (fun _ => true) ⟨false, false⟩
      ⟨5, 1, some AudioCommand.audioSiriStop, none⟩ rfl (Or.inl rfl),
    c3_siri_mic_routing.2.2 (fun _ => true) ⟨false, false⟩
      [⟨5, 1, some AudioCommand.audioSiriStart, none⟩,
        ⟨5, 1, some AudioCommand.audioSiriStop, none⟩] rfl⟩

/-- C10.  The PCM-data branch and the command branch of AudioData
handling are mutually exclusive: a message with a (non-empty) data
payload only forwards the chunked PCM (plus at most a one-shot
`audioInfo`), never acts on its command field and never touches the
Microphone; Microphone routing happens only for messages carrying a
command and no data. -/
theorem c10_data_command_exclusive :
    (∀ (atm : Bool) (mk : ℕ → Bool) (st : ServiceState) (msg : AudioMsg) (d : List ℤ),
      msg.data = some d → d ≠ [] →
      (audioHandler atm mk st msg).2 =
        (chunksOf 65536 d).map SvcEv.chunkSent ++
          (if st.audioInfoSent = false ∧ mk msg.decodeType then [SvcEv.audioInfo] else []) ∧
      (chunksOf 65536 d).flatten = d ∧
      (audioHandler atm mk st msg).1.micRunning = st.micRunning ∧
      SvcEv.micStart ∉ (audioHandler atm mk st msg).2 ∧
      SvcEv.micStop ∉ (audioHandler atm mk st msg).2) ∧
    (∀ (atm : Bool) (mk : ℕ → Bool) (st : ServiceState) (msg : AudioMsg),
      (SvcEv.micStart ∈ (audioHandler atm mk st msg).2 ∨
        SvcEv.micStop ∈ (audioHandler atm mk st msg).2) →
      msg.data = none ∧ msg.command ≠ none) := by
  constructor
  · intro atm mk st msg d hd hne
    refine ⟨?_, chunksOf_flatten 65536 (by decide) d, ?_, ?_, ?_⟩ <;>
      simp only [audioHandler, hd] <;> split_ifs <;> simp
  · intro atm mk st msg hmem
    cases hd : msg.data with
    | some d =>
      exfalso
      rcases hmem with hmem | hmem <;>
        · simp only [audioHandler, hd] at hmem
          split_ifs at hmem <;> simp at hmem
    | none =>
      cases hc : msg.command with
      | none =>
        exfalso
        rcases hmem with hmem | hmem <;> simp [audioHandler, hd, hc] at hmem
      | some c => exact ⟨rfl, by simp [hc]⟩

/-- Witness for C10: a message carrying both PCM data and a Siri-start
command forwards only the data; a pure command message reaches the
Microphone. -/
theorem c10_data_command_exclusive_witness :
    ((⟨5, 1, some AudioCommand.audioSiriStart, some [1, 2, 3]⟩ : AudioMsg).data =
        some [1, 2, 3] ∧ ([1, 2, 3] : List ℤ) ≠ [] ∧
      SvcEv.micStart ∈ (audioHandler false (fun _ => true) ⟨false, false⟩
        ⟨5, 1, some AudioCommand.audioSiriStart, none⟩).2) ∧
    ((audioHandler false (fun _ => true) ⟨false, false⟩
          ⟨5, 1, some AudioCommand.audioSiriStart, some [1, 2, 3]⟩).2 =
        (chunksOf 65536 [1, 2, 3]).map SvcEv.chunkSent ++
          (if (false : Bool) = false ∧ (fun _ => true) 5 then [SvcEv.audioInfo] else []) ∧
      (chunksOf 65536 [1, 2, 3]).flatten = [1, 2, 3] ∧
      (audioHandler false (fun _ => true) ⟨false, false⟩
          ⟨5, 1, some AudioCommand.audioSiriStart, some [1, 2, 3]⟩).1.micRunning = false ∧
      SvcEv.micStart ∉ (audioHandler false (fun _ => true) ⟨false, false⟩
          ⟨5, 1, some AudioCommand.audioSiriStart, some [1, 2, 3]⟩).2 ∧
      SvcEv.micStop ∉ (audioHandler false (fun _ => true) ⟨false, false⟩
          ⟨5, 1, some AudioCommand.audioSiriStart, some [1, 2, 3]⟩).2) ∧
    ((⟨5, 1, some AudioCommand.audioSiriStart, none⟩ : AudioMsg).data = none ∧
      (⟨5, 1, some AudioCommand.audioSiriStart, none⟩ : AudioMsg).command ≠ none) :=
  ⟨⟨rfl, by decide, by decide⟩,
    c10_data_command_exclusive.1 false (fun _ => true) ⟨false, false⟩
      ⟨5, 1, some AudioCommand.audioSiriStart, some [1, 2, 3]⟩ [1, 2, 3] rfl (by decide),
    c10_data_command_exclusive.2 false (fun _ => true) ⟨false, false⟩
      ⟨5, 1, some AudioCommand.audioSiriStart, none⟩ (Or.inl (by decide))⟩

lemma clamp01_unit (v : JSNum) (h : v ≠ .nan) : inUnit (clamp01 v) := by
  cases v with
  | fin q =>
    by_cases h0 : q < 0
    · simp [clamp01, JSNum.jlt, JSNum.jgt, h0]
      exact ⟨0, rfl, le_rfl, by norm_num⟩
    · by_cases h1 : 1 < q
      · simp [clamp01, JSNum.jlt, JSNum.jgt, h0, h1]
        exact ⟨1, rfl, by norm_num, le_rfl⟩
      · simp [clamp01, JSNum.jlt, JSNum.jgt, h0, h1]
        exact ⟨q, rfl, by linarith [not_lt.mp h0], by linarith [not_lt.mp h1]⟩
  | posInf =>
    simp only [clamp01, JSNum.jgt, JSNum.jlt]
    exact ⟨1, rfl, by norm_num, le_rfl⟩
  | negInf =>
    simp only [clamp01, JSNum.jgt, JSNum.jlt]
    exact ⟨0, rfl, le_rfl, by norm_num⟩
  | nan => exact absurd rfl h

/-- C8 counterexample.  The renderer-side clamp does *not* clamp NaN:
`clamp01(NaN) = NaN` (both JS comparisons are false), so with a NaN
client coordinate `norm` returns NaN, not a value in `[0, 1]`.  The
main-process `to01` does clamp NaN (to 0). -/
theorem c8_clamp_counterexample :
    normCoord (.fin 0) (.fin 1) .nan = .nan ∧
    ¬ inUnit (normCoord (.fin 0) (.fin 1) .nan) ∧
    ¬ inUnit (clamp01 .nan) ∧
    to01 .nan = .fin 0 := by
  refine ⟨rfl, ?_, ?_, rfl⟩ <;> decide

/-- C8 as amended: `to01` maps every value — NaN and ±∞ included — into
`[0, 1]`; `clamp01` (hence `clamp01 ∘ norm`) maps every *non-NaN* value
into `[0, 1]`, but passes NaN through unchanged. -/
theorem c8_clamp_amended :
    (∀ v : JSNum, inUnit (to01 v)) ∧
    (∀ v : JSNum, v ≠ .nan → inUnit (clamp01 v)) ∧
    (∀ o e c : JSNum, (c.jsub o).jdiv e ≠ .nan → inUnit (normCoord o e c)) := by
  refine ⟨?_, clamp01_unit, fun o e c h => clamp01_unit _ h⟩
  intro v
  cases v with
  | fin q =>
    by_cases h0 : q < 0
    · simp [to01, JSNum.isFinite, JSNum.jlt, JSNum.jgt, h0]
      exact ⟨0, rfl, le_rfl, by norm_num⟩
    · by_cases h1 : 1 < q
      · simp [to01, JSNum.isFinite, JSNum.jlt, JSNum.jgt, h0, h1]
        exact ⟨1, rfl, by norm_num, le_rfl⟩
      · simp [to01, JSNum.isFinite, JSNum.jlt, JSNum.jgt, h0, h1]
        exact ⟨q, rfl, by linarith [not_lt.mp h0], by linarith [not_lt.mp h1]⟩
  | posInf => exact ⟨0, rfl, le_rfl, by norm_num⟩
  | negInf => exact ⟨0, rfl, le_rfl, by norm_num⟩
  | nan => exact ⟨0, rfl, le_rfl, by norm_num⟩

/-- Witness for the amended C8 at the infinities and a finite rect. -/
theorem c8_clamp_amended_witness :
    ((JSNum.posInf ≠ JSNum.nan) ∧
      ((JSNum.posInf.jsub (.fin 0)).jdiv (.fin 1) ≠ JSNum.nan)) ∧
    inUnit (to01 .posInf) ∧ inUnit (to01 .negInf) ∧ inUnit (to01 .nan) ∧
    inUnit (clamp01 .posInf) ∧ inUnit (normCoord (.fin 0) (.fin 1) .posInf) :=
  ⟨⟨by decide, by decide⟩,
    c8_clamp_amended.1 .posInf, c8_clamp_amended.1 .negInf, c8_clamp_amended.1 .nan,
    c8_clamp_amended.2.1 .posInf (by decide),
    c8_clamp_amended.2.2 (.fin 0) (.fin 1) .posInf (by decide)⟩

/-! ## Pair timeout (`Carplay` driver wrapper)

`initialiseAfterReconnect` schedules `setTimeout(send wifiPair, 15000)`;
the driver-message handler calls `clearPairTimeout()` on `Plugged`,
`VideoData`, `AudioData` and `MediaData` (but not on `Command`), and
`stop()` clears it too.  Timers are embedded with explicit absolute
deadlines and an `elapse` event that fires a due timer. -/

inductive PairEvent where
  | start
  | plugged
  | video
  | audio
  | media
  | command
  | stop
  | elapse (d : ℕ)
deriving DecidableEq, Repr

structure PairState where
  now : ℕ
  pairDeadline : Option ℕ
  wifiPairSent : ℕ
deriving DecidableEq, Repr

/-- One event of the pair-timeout machine. -/
def pairStep (s : PairState) : PairEvent → PairState
  | .start => { s with pairDeadline := some (s.now + 15000) }
  | .plugged => { s with pairDeadline := none }
  | .video => { s with pairDeadline := none }
  | .audio => { s with pairDeadline := none }
  | .media => { s with pairDeadline := none }
  | .command => s
  | .stop => { s with pairDeadline := none }
  | .elapse d =>
    match s.pairDeadline with
    | some t =>
      if t ≤ s.now + d then
        { now := s.now + d, pairDeadline := none, wifiPairSent := s.wifiPairSent + 1 }
      else { s with now := s.now + d }
    | none => { s with now := s.now + d }

def pairRun (s : PairState) : List PairEvent → PairState
  | [] => s
  | e :: rest => pairRun (pairStep s e) rest

lemma pairRun_none (s : PairState) (evs : List PairEvent)
    (hd : s.pairDeadline = none) (hs : ∀ e ∈ evs, e ≠ PairEvent.start) :
    (pairRun s evs).wifiPairSent = s.wifiPairSent ∧
    (pairRun s evs).pairDeadline = none := by
  induction evs generalizing s with
  | nil => exact ⟨rfl, hd⟩
  | cons e rest ih =>
    have hstep : (pairStep s e).wifiPairSent = s.wifiPairSent ∧
        (pairStep s e).pairDeadline = none := by
      cases e with
      | start => exact absurd rfl (hs .start (by simp))
      | elapse d => simp [pairStep, hd]
      | plugged => exact ⟨rfl, rfl⟩
      | video => exact ⟨rfl, rfl⟩
      | audio => exact ⟨rfl, rfl⟩
      | media => exact ⟨rfl, rfl⟩
      | command => exact ⟨rfl, hd⟩
      | stop => exact ⟨rfl, rfl⟩
    obtain ⟨h1, h2⟩ := ih (pairStep s e) hstep.2 (fun e' he' => hs e' (by simp [he']))
    exact ⟨h1.trans hstep.1, h2⟩

/-- C4.  After `start`, a pair timeout is scheduled for `now + 15000`;
if only time elapses (no media) past the deadline, `wifiPair` is sent
exactly once (and the timer is spent, so it never fires again); the
arrival of VideoData, AudioData or MediaData clears the timer, after
which no sequence of non-`start` events ever sends `wifiPair`. -/
theorem c4_pair_timeout :
    (∀ s : PairState, (pairStep s .start).pairDeadline = some (s.now + 15000) ∧
      (pairStep s .start).wifiPairSent = s.wifiPairSent) ∧
    (∀ (s : PairState) (t : ℕ) (ds : List ℕ), s.pairDeadline = some t → ds ≠ [] →
      t ≤ s.now + ds.sum →
      (pairRun s (ds.map PairEvent.elapse)).wifiPairSent = s.wifiPairSent + 1 ∧
      (pairRun s (ds.map PairEvent.elapse)).pairDeadline = none) ∧
    (∀ (s : PairState) (e : PairEvent),
      (e = .video ∨ e = .audio ∨ e = .media) →
      (pairStep s e).pairDeadline = none ∧ (pairStep s e).wifiPairSent = s.wifiPairSent) ∧
    (∀ (s : PairState) (evs : List PairEvent), s.pairDeadline = none →
      (∀ e ∈ evs, e ≠ PairEvent.start) →
      (pairRun s evs).wifiPairSent = s.wifiPairSent ∧
      (pairRun s evs).pairDeadline = none) := by
  refine ⟨fun s => ⟨rfl, rfl⟩, ?_, ?_, pairRun_none⟩
  · intro s t ds
    induction ds generalizing s with
    | nil => intro _ hne _; exact absurd rfl hne
    | cons d rest ih =>
      intro hd _ hsum
      simp only [List.map_cons, pairRun]
      by_cases hfire : t ≤ s.now + d
      · have hstep : pairStep s (.elapse d) =
            { now := s.now + d, pairDeadline := none, wifiPairSent := s.wifiPairSent + 1 } := by
          simp [pairStep, hd, hfire]
        rw [hstep]
        have hnone := pairRun_none
          ⟨s.now + d, none, s.wifiPairSent + 1⟩ (rest.map PairEvent.elapse) rfl
          (fun e he => by rcases List.mem_map.mp he with ⟨x, -, rfl⟩; simp)
        exact ⟨hnone.1, hnone.2⟩
      · have hstep : pairStep s (.elapse d) = { s with now := s.now + d } := by
          simp [pairStep, hd, hfire]
        cases rest with
        | nil =>
          exfalso
          simp at hsum
          omega
        | cons d2 rest2 =>
          rw [hstep]
          exact ih { s with now := s.now + d } hd (by simp) (by simp at hsum ⊢; omega)
  · intro s e he
    rcases he with he | he | he <;> subst he <;> exact ⟨rfl, rfl⟩

/-- Witness for C4: schedule at time 0, fire at 20 000 ms; or cancel
with a VideoData and elapse without ever sending. -/
theorem c4_pair_timeout_witness :
    ((⟨0, some 15000, 0⟩ : PairState).pairDeadline = some 15000 ∧
      ([20000] : List ℕ) ≠ [] ∧ (15000 : ℕ) ≤ 0 + ([20000] : List ℕ).sum ∧
      (pairStep ⟨0, some 15000, 0⟩ .video).pairDeadline = none ∧
      (∀ e ∈ [PairEvent.elapse 20000], e ≠ PairEvent.start)) ∧
    ((pairStep ⟨0, none, 0⟩ .start).pairDeadline = some 15000 ∧
      (pairStep ⟨0, none, 0⟩ .start).wifiPairSent = 0) ∧
    ((pairRun ⟨0, some 15000, 0⟩ ([20000].map PairEvent.elapse)).wifiPairSent = 0 + 1 ∧
      (pairRun ⟨0, some 15000, 0⟩ ([20000].map PairEvent.elapse)).pairDeadline = none) ∧
    ((pairStep ⟨0, some 15000, 0⟩ .video).pairDeadline = none ∧
      (pairStep ⟨0, some 15000, 0⟩ .video).wifiPairSent = 0) ∧
    ((pairRun ⟨20000, none, 0⟩ [PairEvent.elapse 20000]).wifiPairSent = 0 ∧
      (pairRun ⟨20000, none, 0⟩ [PairEvent.elapse 20000]).pairDeadline = none) :=
  ⟨⟨rfl, by decide, by decide, rfl, by decide⟩,
    c4_pair_timeout.1 ⟨0, none, 0⟩,
    c4_pair_timeout.2.1 ⟨0, some 15000, 0⟩ 15000 [20000] rfl (by decide) (by decide),
    c4_pair_timeout.2.2.1 ⟨0, some 15000, 0⟩ .video (Or.inl rfl),
    c4_pair_timeout.2.2.2 ⟨20000, none, 0⟩ [PairEvent.elapse 20000] rfl (by decide)⟩

/-! ## SPS+IDR gating (`Render.worker.ts`, `processRaw`)

A frame buffer is abstracted by what the NALU helpers (which live in
`render/lib/utils`, outside `src/`) report about it: whether the
(header-stripped) payload is empty, the SPS NALU found in it (an opaque
identifier), whether it contains an IDR (`isKeyFrame`), and whether
`getDecoderConfig` + `configureDecoder` succeed on the latched SPS when
attempted at this frame (`cfgOk`, an environment oracle).  A
`decoder.decode` submission is recorded in `decoded`; submissions are
modelled as non-throwing. -/

structure VFrame where
  empty : Bool
  sps : Option ℕ
  key : Bool
  cfgOk : Bool

structure RenderState where
  isConfigured : Bool
  lastSPS : Option ℕ
  awaitingValidKeyframe : Bool
  decoded : List (Bool × ℕ)

/-- The worker's construction-time state. -/
def renderInit : RenderState := ⟨false, none, true, []⟩

/-- `RendererWorker.processRaw` on one frame (`fid` is its index). -/
def processRaw (s : RenderState) (fr : VFrame) (fid : ℕ) : RenderState :=
  if fr.empty = true then s
  else
    let s1 : RenderState := if fr.sps.isSome = true ∧ s.isConfigured = false
      then { s with lastSPS := fr.sps } else s
    if s1.awaitingValidKeyframe = true ∧ fr.key = false then s1
    else if fr.key = true ∧ s1.lastSPS.isSome = true ∧ s1.isConfigured = false then
      if fr.cfgOk = true then
        { s1 with
            isConfigured := true
            awaitingValidKeyframe := false
            decoded := s1.decoded ++ [(true, fid)] }
      else s1
    else if s1.isConfigured = false ∨ s1.awaitingValidKeyframe = true then s1
    else { s1 with decoded := s1.decoded ++ [(fr.key, fid)] }

/-- Runs the worker over a frame list, numbering frames from `i`. -/
def runRender (s : RenderState) : List VFrame → ℕ → RenderState
  | [], _ => s
  | f :: rest, i => runRender (processRaw s f i) rest (i + 1)

/-- While awaiting a valid keyframe, a non-key frame is dropped: no
decode, no state change besides latching an SPS. -/
lemma processRaw_drop (s : RenderState) (fr : VFrame) (fid : ℕ)
    (hA : s.awaitingValidKeyframe = true) (hk : fr.key = false) :
    (processRaw s fr fid).decoded = s.decoded ∧
    (processRaw s fr fid).awaitingValidKeyframe = true ∧
    (processRaw s fr fid).isConfigured = s.isConfigured := by
  unfold processRaw
  by_cases he : fr.empty = true
  · rw [if_pos he]
    exact ⟨rfl, hA, rfl⟩
  · rw [if_neg he]
    have h1 : (if fr.sps.isSome = true ∧ s.isConfigured = false
        then { s with lastSPS := fr.sps } else s).awaitingValidKeyframe = true ∧
        (if fr.sps.isSome = true ∧ s.isConfigured = false
        then { s with lastSPS := fr.sps } else s).decoded = s.decoded ∧
        (if fr.sps.isSome = true ∧ s.isConfigured = false
        then { s with lastSPS := fr.sps } else s).isConfigured = s.isConfigured := by
      split <;> exact ⟨hA, rfl, rfl⟩
    generalize hS : (if fr.sps.isSome = true ∧ s.isConfigured = false
        then { s with lastSPS := fr.sps } else s) = s1 at h1 ⊢
    rw [if_pos ⟨h1.1, hk⟩]
    exact ⟨h1.2.1, h1.1, h1.2.2⟩

lemma runRender_nonkey (frames : List VFrame) (s : RenderState) (i : ℕ)
    (hA : s.awaitingValidKeyframe = true) (hk : ∀ f ∈ frames, f.key = false) :
    (runRender s frames i).decoded = s.decoded ∧
    (runRender s frames i).awaitingValidKeyframe = true ∧
    (runRender s frames i).isConfigured = s.isConfigured := by
  induction frames generalizing s i with
  | nil => exact ⟨rfl, hA, rfl⟩
  | cons f rest ih =>
    obtain ⟨h1, h2, h3⟩ := processRaw_drop s f i hA (hk f (by simp))
    obtain ⟨h4, h5, h6⟩ := ih (processRaw s f i) (i + 1) h2 (fun g hg => hk g (by simp [hg]))
    exact ⟨h4.trans h1, h5, h6.trans h3⟩

/-- The gating invariant of the worker state. -/
def RInv (s : RenderState) : Prop :=
  (s.awaitingValidKeyframe = true → s.decoded = []) ∧
  (s.isConfigured = false → s.awaitingValidKeyframe = true) ∧
  (s.isConfigured = true → s.awaitingValidKeyframe = false → s.decoded ≠ []) ∧
  (s.decoded ≠ [] → s.lastSPS.isSome = true) ∧
  (∀ pr, s.decoded.head? = some pr → pr.1 = true)

lemma processRaw_inv (s : RenderState) (fr : VFrame) (fid : ℕ) (h : RInv s) :
    RInv (processRaw s fr fid) := by
  obtain ⟨i1, i2, i3, i4, i5⟩ := h
  simp only [processRaw]
  by_cases he : fr.empty = true
  · rw [if_pos he]
    exact ⟨i1, i2, i3, i4, i5⟩
  · rw [if_neg he]
    have hInv1 : RInv (if fr.sps.isSome = true ∧ s.isConfigured = false
        then { s with lastSPS := fr.sps } else s) := by
      split
      · rename_i hc
        exact ⟨i1, i2, i3, fun _ => hc.1, i5⟩
      · exact ⟨i1, i2, i3, i4, i5⟩
    generalize hS : (if fr.sps.isSome = true ∧ s.isConfigured = false
        then { s with lastSPS := fr.sps } else s) = s1 at hInv1 ⊢
    obtain ⟨j1, j2, j3, j4, j5⟩ := hInv1
    split
    · exact ⟨j1, j2, j3, j4, j5⟩
    · split
      · rename_i hcfg
        split
        · have hdec : s1.decoded = [] := j1 (j2 hcfg.2.2)
          refine ⟨by simp, by simp, by simp, fun _ => hcfg.2.1, ?_⟩
          intro pr hpr
          simp only [hdec, List.nil_append, List.head?_cons, Option.some.injEq] at hpr
          rw [← hpr]
        · exact ⟨j1, j2, j3, j4, j5⟩
      · split
        · exact ⟨j1, j2, j3, j4, j5⟩
        · rename_i hn3
          push_neg at hn3
          have hcfgT : s1.isConfigured = true :=
            Bool.not_eq_false _ ▸ Bool.eq_true_of_ne_false hn3.1
          have hawF : s1.awaitingValidKeyframe = false := Bool.eq_false_iff.mpr hn3.2
          have hne : s1.decoded ≠ [] := j3 hcfgT hawF
          obtain ⟨a, t, hat⟩ := List.exists_cons_of_ne_nil hne
          refine ⟨?_, ?_, ?_, fun _ => j4 hne, ?_⟩
          · intro hA
            rw [show ({ s1 with decoded := s1.decoded ++ [(fr.key, fid)] } :
              RenderState).awaitingValidKeyframe = s1.awaitingValidKeyframe from rfl,
              hawF] at hA
            cases hA
          · intro hC
            rw [show ({ s1 with decoded := s1.decoded ++ [(fr.key, fid)] } :
              RenderState).isConfigured = s1.isConfigured from rfl, hcfgT] at hC
            cases hC
          · intro _ _
            simp
          · intro pr hpr
            refine j5 pr ?_
            rw [show ({ s1 with decoded := s1.decoded ++ [(fr.key, fid)] } :
              RenderState).decoded = s1.decoded ++ [(fr.key, fid)] from rfl, hat] at hpr
            rw [hat]
            simpa using hpr

/-- The invariant holds along any run from the initial state. -/
lemma runRender_inv (frames : List VFrame) (s : RenderState) (i : ℕ) (h : RInv s) :
    RInv (runRender s frames i) := by
  induction frames generalizing s i with
  | nil => exact h
  | cons f rest ih => exact ih _ (i + 1) (processRaw_inv s f i h)

lemma runRender_append (l1 l2 : List VFrame) (s : RenderState) (i : ℕ) :
    runRender s (l1 ++ l2) i = runRender (runRender s l1 i) l2 (i + l1.length) := by
  induction l1 generalizing s i with
  | nil => rfl
  | cons f t ih =>
    show runRender (processRaw s f i) (t ++ l2) (i + 1) = _
    rw [ih (processRaw s f i) (i + 1),
      show i + 1 + t.length = i + (t.length + 1) by omega]
    rfl

/-- A non-key, non-empty frame carrying an SPS while unconfigured and
awaiting a keyframe only latches the SPS. -/
lemma processRaw_sps (s : RenderState) (fr : VFrame) (fid : ℕ)
    (hA : s.awaitingValidKeyframe = true) (hk : fr.key = false)
    (hsps : fr.sps.isSome = true) (hcfg : s.isConfigured = false)
    (he : fr.empty = false) :
    processRaw s fr fid = { s with lastSPS := fr.sps } := by
  simp only [processRaw]
  rw [if_neg (by simp [he]),
    if_pos ⟨(by split <;> exact hA :
      (if fr.sps.isSome = true ∧ s.isConfigured = false
        then { s with lastSPS := fr.sps } else s).awaitingValidKeyframe = true), hk⟩,
    if_pos ⟨hsps, hcfg⟩]

/-- The first keyframe after an SPS, with the decoder configuring
successfully, is decoded as the first chunk. -/
lemma processRaw_firstkey (s : RenderState) (fr : VFrame) (fid : ℕ)
    (hk : fr.key = true) (hcfg : s.isConfigured = false)
    (hsps : s.lastSPS.isSome = true) (hok : fr.cfgOk = true)
    (he : fr.empty = false) (hdec : s.decoded = []) :
    (processRaw s fr fid).decoded = [(true, fid)] := by
  simp only [processRaw]
  rw [if_neg (by simp [he])]
  split
  · rename_i hc
    rw [if_neg (by simp [hk]), if_pos ⟨hk, by simpa using hc.1, hcfg⟩]
    simp [hok, hdec]
  · rw [if_neg (by simp [hk]), if_pos ⟨hk, hsps, hcfg⟩]
    simp [hok, hdec]

/-- C6.  The video worker never submits a frame to the decoder before
an SPS has been latched and a keyframe has arrived: while awaiting a
valid keyframe every non-key frame is dropped undecoded; a stream of
non-key frames decodes nothing; whenever anything has been decoded an
SPS had been observed and the first decoded chunk is a keyframe; and
for a mid-GOP stream followed by an SPS and an IDR, exactly that
keyframe is decoded (as a key chunk, at its own index). -/
theorem c6_sps_idr_gating :
    (∀ (s : RenderState) (fr : VFrame) (fid : ℕ),
      s.awaitingValidKeyframe = true → fr.key = false →
      (processRaw s fr fid).decoded = s.decoded) ∧
    (∀ frames : List VFrame, (∀ f ∈ frames, f.key = false) →
      (runRender renderInit frames 0).decoded = []) ∧
    (∀ frames : List VFrame,
      ((runRender renderInit frames 0).decoded ≠ [] →
        (runRender renderInit frames 0).lastSPS.isSome = true) ∧
      (∀ pr, (runRender renderInit frames 0).decoded.head? = some pr → pr.1 = true)) ∧
    (∀ (ps : List VFrame) (spsF idrF : VFrame),
      (∀ f ∈ ps, f.key = false) → spsF.key = false → spsF.sps.isSome = true →
      spsF.empty = false → idrF.key = true → idrF.cfgOk = true → idrF.empty = false →
      (runRender renderInit (ps ++ [spsF, idrF]) 0).decoded = [(true, ps.length + 1)]) := by
  have hinit : RInv renderInit := by
    refine ⟨fun _ => rfl, fun _ => rfl, fun h _ => ?_, fun h => ?_, fun pr hpr => ?_⟩
    · cases h
    · exact absurd rfl h
    · cases hpr
  refine ⟨fun s fr fid hA hk => (processRaw_drop s fr fid hA hk).1, ?_, ?_, ?_⟩
  · intro frames hk
    exact (runRender_nonkey frames renderInit 0 rfl hk).1
  · intro frames
    have h := runRender_inv frames renderInit 0 hinit
    exact ⟨h.2.2.2.1, h.2.2.2.2⟩
  · intro ps spsF idrF hps hk hsps hse hik hok hie
    obtain ⟨hdecA, hawA, hcfgA⟩ := runRender_nonkey ps renderInit 0 rfl hps
    rw [runRender_append]
    show (runRender (processRaw (processRaw (runRender renderInit ps 0) spsF (0 + ps.length))
      idrF (0 + ps.length + 1)) [] (0 + ps.length + 1 + 1)).decoded = _
    rw [processRaw_sps (runRender renderInit ps 0) spsF (0 + ps.length) hawA hk hsps
      (by rw [hcfgA]; rfl) hse]
    show (processRaw { runRender renderInit ps 0 with lastSPS := spsF.sps }
      idrF (0 + ps.length + 1)).decoded = _
    rw [processRaw_firstkey _ idrF _ hik (by simpa using hcfgA) (by simpa using hsps) hok hie
      (by simpa using hdecA)]
    simp

/-- Witness for C6: one P-slice, then an SPS frame, then an IDR. -/
theorem c6_sps_idr_gating_witness :
    ((⟨false, none, false, true⟩ : VFrame).key = false ∧
      (⟨false, some 7, false, true⟩ : VFrame).sps.isSome = true ∧
      (⟨false, none, true, true⟩ : VFrame).key = true ∧
      renderInit.awaitingValidKeyframe = true) ∧
    (processRaw renderInit ⟨false, none, false, true⟩ 0).decoded = renderInit.decoded ∧
    (runRender renderInit [⟨false, none, false, true⟩, ⟨false, none, false, true⟩] 0).decoded
      = [] ∧
    ((runRender renderInit [⟨false, none, false, true⟩] 0).decoded ≠ [] →
      (runRender renderInit [⟨false, none, false, true⟩] 0).lastSPS.isSome = true) ∧
    (runRender renderInit
      ([⟨false, none, false, true⟩] ++ [⟨false, some 7, false, true⟩, ⟨false, none, true, true⟩])
      0).decoded = [(true, 2)] := by
  refine ⟨⟨rfl, rfl, rfl, rfl⟩, ?_, ?_, ?_, ?_⟩
  · exact c6_sps_idr_gating.1 renderInit ⟨false, none, false, true⟩ 0 rfl rfl
  · exact c6_sps_idr_gating.2.1 [⟨false, none, false, true⟩, ⟨false, none, false, true⟩]
      (by intro f hf; simp at hf; simp [hf])
  · exact (c6_sps_idr_gating.2.2.1 [⟨false, none, false, true⟩]).1
  · have := c6_sps_idr_gating.2.2.2 [⟨false, none, false, true⟩]
      ⟨false, some 7, false, true⟩ ⟨false, none, true, true⟩
      (by intro f hf; simp at hf; simp [hf]) rfl rfl rfl rfl rfl rfl
    simpa using this

/-! Multi-touch hook `useCarplayMultiTouch` (useCarplayTouch.ts).  JS `Map`s
are embedded as association lists kept in insertion order (the order
`Map.forEach` iterates in); `Map.get` is `mget`, `Map.set` is `mapSet`
(update in place if present, else append) and `Map.delete` is `mapDelete`.
Only touch/pen pointers are modelled: the `pointerType === 'mouse'` branches
use the separate single-touch path and never touch this state.  A `TEvent.up`
stands for any of pointerup / pointercancel / lostpointercapture, which all
run `finishPointer`. -/

/-- `MultiTouchAction` values used by the hook. -/
inductive MTAction where
  | down
  | move
  | up
deriving DecidableEq, Repr

/-- One entry of the full-frame snapshot (`MTPoint` in the source). -/
structure MTPoint where
  id : ℕ
  x : ℚ
  y : ℚ
  action : MTAction
deriving DecidableEq, Repr

/-- A pointer event delivered to the hook (already normalised coordinates). -/
inductive TEvent where
  | down (pid : ℕ) (x y : ℚ)
  | move (pid : ℕ) (x y : ℚ)
  | up (pid : ℕ) (x y : ℚ)
deriving DecidableEq, Repr

/-- The hook's mutable refs: `slotByPointerId`, `active`, `freeSlots`,
`nextSlot`. -/
structure TouchState where
  slotByPointerId : List (ℕ × ℕ)
  active : List (ℕ × (ℚ × ℚ))
  freeSlots : List ℕ
  nextSlot : ℕ
deriving DecidableEq, Repr

/-- Initial ref values: empty maps, no free slots, `nextSlot = 0`. -/
def touchInit : TouchState := ⟨[], [], [], 0⟩

/-- `Map.get` on an association list (first matching key). -/
def mget {α : Type} : List (ℕ × α) → ℕ → Option α
  | [], _ => none
  | p :: rest, k => if p.1 = k then some p.2 else mget rest k

/-- `Map.set`: overwrite in place when the key is present (preserving
insertion order), otherwise append at the end. -/
def mapSet {α : Type} (m : List (ℕ × α)) (k : ℕ) (v : α) : List (ℕ × α) :=
  if (mget m k).isSome then
    m.map fun p => if p.1 = k then (k, v) else p
  else m ++ [(k, v)]

/-- `Map.delete`. -/
def mapDelete {α : Type} (m : List (ℕ × α)) (k : ℕ) : List (ℕ × α) :=
  m.filter fun p => p.1 != k

/-- `alloc(pid)`: reuse the pointer's existing slot, else pop the last free
slot (`freeSlots.pop()`), else take a fresh `nextSlot++`. -/
def alloc (s : TouchState) (pid : ℕ) : ℕ × TouchState :=
  match mget s.slotByPointerId pid with
  | some old => (old, s)
  | none =>
    match s.freeSlots.getLast? with
    | some reuse =>
      (reuse, { s with
        freeSlots := s.freeSlots.dropLast
        slotByPointerId := mapSet s.slotByPointerId pid reuse })
    | none =>
      (s.nextSlot, { s with
        nextSlot := s.nextSlot + 1
        slotByPointerId := mapSet s.slotByPointerId pid s.nextSlot })

/-- `free(pid)`: if the pointer holds a slot, drop it from both maps and
push the slot onto `freeSlots`. -/
def free (s : TouchState) (pid : ℕ) : TouchState :=
  match mget s.slotByPointerId pid with
  | some slot =>
    { s with
      slotByPointerId := mapDelete s.slotByPointerId pid
      active := mapDelete s.active slot
      freeSlots := s.freeSlots ++ [slot] }
  | none => s

/-- `sendFullFrame(overrides?)`: every active pointer with its current
position and the overridden action (default `Move`); if that yields nothing
but overrides exist, look the overridden ids up in `active`; send nothing
when the frame is empty (`none`). -/
def sendFullFrame (act : List (ℕ × (ℚ × ℚ))) (overrides : List (ℕ × MTAction)) :
    Option (List MTPoint) :=
  let pts := act.map fun p =>
    MTPoint.mk p.1 p.2.1 p.2.2 ((mget overrides p.1).getD MTAction.move)
  let pts2 :=
    if pts.isEmpty && !overrides.isEmpty then
      overrides.filterMap fun ov =>
        (mget act ov.1).map fun pos => MTPoint.mk ov.1 pos.1 pos.2 ov.2
    else pts
  if pts2.isEmpty then none else some pts2

/-- One pointer event: `onPointerDown` / `onPointerMove` / `finishPointer`
(touch branch), returning the new state and the frame sent, if any. -/
def touchStep (s : TouchState) : TEvent → TouchState × Option (List MTPoint)
  | .down pid x y =>
    let a := alloc s pid
    let act1 := mapSet a.2.active a.1 (x, y)
    ({ a.2 with active := act1 }, sendFullFrame act1 [(a.1, MTAction.down)])
  | .move pid x y =>
    match mget s.slotByPointerId pid with
    | none => (s, none)
    | some id =>
      let act1 := mapSet s.active id (x, y)
      ({ s with active := act1 }, sendFullFrame act1 [])
  | .up pid x y =>
    match mget s.slotByPointerId pid with
    | none => (s, none)
    | some id =>
      let act1 := mapSet s.active id (x, y)
      (free { s with active := act1 } pid, sendFullFrame act1 [(id, MTAction.up)])

/-- Run a sequence of pointer events from a state. -/
def runTouch (s : TouchState) : List TEvent → TouchState
  | [] => s
  | e :: rest => runTouch (touchStep s e).1 rest

/-- Spec-side oracle: the pointers seen Down and not yet released, in first
-down order, starting from `cur`. -/
def activePids (cur : List ℕ) : List TEvent → List ℕ
  | [] => cur
  | TEvent.down pid _ _ :: rest =>
      activePids (if pid ∈ cur then cur else cur ++ [pid]) rest
  | TEvent.move _ _ _ :: rest => activePids cur rest
  | TEvent.up pid _ _ :: rest => activePids (cur.filter fun q => q != pid) rest

/-- Spec-side shape of a full-frame snapshot: every entry of `act` with its
stored position, the changed slot `chg` carrying `a` and all others `Move`. -/
def pointsOf (act : List (ℕ × (ℚ × ℚ))) (chg : ℕ) (a : MTAction) : List MTPoint :=
  act.map fun p =>
    MTPoint.mk p.1 p.2.1 p.2.2 (if chg = p.1 then a else MTAction.move)

/-- Invariants of the slot-allocation state: unique pointer ids, unique slot
ids, unique free slots, free slots disjoint from live slots, all slots below
`nextSlot`, and the active map keyed exactly by the live slots. -/
def TInv (s : TouchState) : Prop :=
  (s.slotByPointerId.map Prod.fst).Nodup ∧
  (s.slotByPointerId.map Prod.snd).Nodup ∧
  s.freeSlots.Nodup ∧
  (∀ sl ∈ s.freeSlots, sl ∉ s.slotByPointerId.map Prod.snd) ∧
  (∀ sl ∈ s.slotByPointerId.map Prod.snd, sl < s.nextSlot) ∧
  (∀ sl ∈ s.freeSlots, sl < s.nextSlot) ∧
  (∀ sl, sl ∈ s.active.map Prod.fst ↔ sl ∈ s.slotByPointerId.map Prod.snd)

@[simp] lemma mget_nil {α : Type} (k : ℕ) : mget ([] : List (ℕ × α)) k = none := rfl

@[simp] lemma mget_cons {α : Type} (p : ℕ × α) (rest : List (ℕ × α)) (k : ℕ) :
    mget (p :: rest) k = if p.1 = k then some p.2 else mget rest k := rfl

lemma mget_isSome_iff {α : Type} (m : List (ℕ × α)) (k : ℕ) :
    (mget m k).isSome = true ↔ k ∈ m.map Prod.fst := by
  induction m with
  | nil => simp
  | cons p rest ih =>
    by_cases h : p.1 = k
    · simp [h]
    · simp [h, ih, Ne.symm h]

lemma mget_eq_none_iff {α : Type} (m : List (ℕ × α)) (k : ℕ) :
    mget m k = none ↔ k ∉ m.map Prod.fst := by
  rw [← mget_isSome_iff]
  cases mget m k <;> simp

lemma mget_none_of_not_isSome {α : Type} {m : List (ℕ × α)} {k : ℕ}
    (hs : ¬ (mget m k).isSome = true) : mget m k = none := by
  cases hmk : mget m k
  · rfl
  · exact absurd (by simp [hmk]) hs

lemma mget_mem {α : Type} {m : List (ℕ × α)} {k : ℕ} {v : α}
    (h : mget m k = some v) : (k, v) ∈ m := by
  induction m with
  | nil => simp at h
  | cons p rest ih =>
    rcases p with ⟨k0, v0⟩
    by_cases hk : k0 = k
    · subst hk
      simp at h
      subst h
      exact List.mem_cons_self _ _
    · simp [hk] at h
      exact List.mem_cons_of_mem _ (ih h)

lemma mget_snd_mem {α : Type} {m : List (ℕ × α)} {k : ℕ} {v : α}
    (h : mget m k = some v) : v ∈ m.map Prod.snd :=
  List.mem_map.mpr ⟨(k, v), mget_mem h, rfl⟩

lemma mget_overwrite_self {α : Type} (m : List (ℕ × α)) (k : ℕ) (v : α)
    (h : (mget m k).isSome = true) :
    mget (m.map fun p => if p.1 = k then (k, v) else p) k = some v := by
  induction m with
  | nil => simp at h
  | cons p rest ih =>
    rcases p with ⟨k0, v0⟩
    by_cases hk : k0 = k
    · subst hk
      simp
    · simp [hk] at h
      simp [hk, ih h]

lemma mget_overwrite_ne {α : Type} (m : List (ℕ × α)) (k k' : ℕ) (v : α)
    (h : k' ≠ k) :
    mget (m.map fun p => if p.1 = k then (k, v) else p) k' = mget m k' := by
  induction m with
  | nil => simp
  | cons p rest ih =>
    rcases p with ⟨k0, v0⟩
    by_cases hk : k0 = k
    · subst hk
      simp [Ne.symm h, ih]
    · by_cases hk' : k0 = k'
      · simp [hk, hk', h]
      · simp [hk, hk', ih]

lemma mget_append {α : Type} (m l : List (ℕ × α)) (k : ℕ) (h : mget m k = none) :
    mget (m ++ l) k = mget l k := by
  induction m with
  | nil => simp
  | cons p rest ih =>
    by_cases hk : p.1 = k
    · simp [hk] at h
    · simp only [List.cons_append, mget_cons] at h ⊢
      rw [if_neg hk] at h ⊢
      exact ih h

lemma mget_append_left {α : Type} (m l : List (ℕ × α)) (k : ℕ) (w : α)
    (h : mget m k = some w) : mget (m ++ l) k = some w := by
  induction m with
  | nil => simp at h
  | cons p rest ih =>
    by_cases hk : p.1 = k
    · simp only [List.cons_append, mget_cons] at h ⊢
      rw [if_pos hk] at h ⊢
      exact h
    · simp only [List.cons_append, mget_cons] at h ⊢
      rw [if_neg hk] at h ⊢
      exact ih h

lemma mapSet_of_isSome {α : Type} (m : List (ℕ × α)) (k : ℕ) (v : α)
    (h : (mget m k).isSome = true) :
    mapSet m k v = m.map fun p => if p.1 = k then (k, v) else p := by
  simp only [mapSet]
  rw [if_pos h]

lemma mapSet_of_none {α : Type} (m : List (ℕ × α)) (k : ℕ) (v : α)
    (h : mget m k = none) : mapSet m k v = m ++ [(k, v)] := by
  simp only [mapSet]
  rw [if_neg (by simp [h])]

lemma mget_mapSet_self {α : Type} (m : List (ℕ × α)) (k : ℕ) (v : α) :
    mget (mapSet m k v) k = some v := by
  by_cases hs : (mget m k).isSome = true
  · rw [mapSet_of_isSome m k v hs]
    exact mget_overwrite_self m k v hs
  · have hnone := mget_none_of_not_isSome hs
    rw [mapSet_of_none m k v hnone, mget_append m _ k hnone]
    simp

lemma mget_mapSet_ne {α : Type} (m : List (ℕ × α)) (k k' : ℕ) (v : α)
    (h : k' ≠ k) :
    mget (mapSet m k v) k' = mget m k' := by
  by_cases hs : (mget m k).isSome = true
  · rw [mapSet_of_isSome m k v hs]
    exact mget_overwrite_ne m k k' v h
  · have hnone := mget_none_of_not_isSome hs
    rw [mapSet_of_none m k v hnone]
    cases hmk : mget m k' with
    | some w => exact mget_append_left m _ k' w hmk
    | none =>
      have h2 : mget ([(k, v)] : List (ℕ × α)) k' = none := by
        simp [Ne.symm h]
      exact (mget_append m _ k' hmk).trans h2

lemma keys_mapSet_of_isSome {α : Type} (m : List (ℕ × α)) (k : ℕ) (v : α)
    (h : (mget m k).isSome = true) :
    (mapSet m k v).map Prod.fst = m.map Prod.fst := by
  rw [mapSet_of_isSome m k v h, List.map_map]
  apply List.map_congr_left
  intro p _
  by_cases hk : p.1 = k <;> simp [Function.comp, hk]

lemma keys_mapSet_of_none {α : Type} (m : List (ℕ × α)) (k : ℕ) (v : α)
    (h : mget m k = none) :
    (mapSet m k v).map Prod.fst = m.map Prod.fst ++ [k] := by
  rw [mapSet_of_none m k v h]
  simp

lemma mapSet_ne_nil {α : Type} (m : List (ℕ × α)) (k : ℕ) (v : α) :
    mapSet m k v ≠ [] := by
  by_cases hs : (mget m k).isSome = true
  · rw [mapSet_of_isSome m k v hs]
    intro hmap
    rw [List.map_eq_nil_iff] at hmap
    subst hmap
    simp at hs
  · have hnone := mget_none_of_not_isSome hs
    rw [mapSet_of_none m k v hnone]
    simp

lemma mget_mapDelete_self {α : Type} (m : List (ℕ × α)) (k : ℕ) :
    mget (mapDelete m k) k = none := by
  induction m with
  | nil => rfl
  | cons p rest ih =>
    by_cases hk : p.1 = k
    · simpa [mapDelete, List.filter_cons, hk] using ih
    · simpa [mapDelete, List.filter_cons, hk] using ih

lemma mget_mapDelete_ne {α : Type} (m : List (ℕ × α)) (k k' : ℕ) (h : k' ≠ k) :
    mget (mapDelete m k) k' = mget m k' := by
  induction m with
  | nil => rfl
  | cons p rest ih =>
    by_cases hk : p.1 = k
    · have hp : ¬ k = k' := fun hh => h hh.symm
      simpa [mapDelete, List.filter_cons, hk, hp] using ih
    · by_cases hk' : p.1 = k'
      · simp [mapDelete, List.filter_cons, hk, hk', h]
      · simpa [mapDelete, List.filter_cons, hk, hk'] using ih

lemma keys_mapDelete {α : Type} (m : List (ℕ × α)) (k : ℕ) :
    (mapDelete m k).map Prod.fst = (m.map Prod.fst).filter (fun q => q != k) := by
  induction m with
  | nil => rfl
  | cons p rest ih =>
    by_cases hk : p.1 = k <;>
      simpa [mapDelete, List.filter_cons, hk] using ih

lemma mem_mapDelete {α : Type} (p : ℕ × α) (m : List (ℕ × α)) (k : ℕ) :
    p ∈ mapDelete m k ↔ p ∈ m ∧ ¬ p.1 = k := by
  simp [mapDelete, List.mem_filter]

lemma values_nodup_key_eq {α : Type} {m : List (ℕ × α)}
    (h : (m.map Prod.snd).Nodup) {a b : ℕ} {v : α}
    (ha : (a, v) ∈ m) (hb : (b, v) ∈ m) : a = b := by
  have := List.inj_on_of_nodup_map h ha hb rfl
  exact congrArg Prod.fst this

lemma keys_nodup_value_eq {α : Type} {m : List (ℕ × α)}
    (h : (m.map Prod.fst).Nodup) {k : ℕ} {v1 v2 : α}
    (h1 : (k, v1) ∈ m) (h2 : (k, v2) ∈ m) : v1 = v2 := by
  have := List.inj_on_of_nodup_map h h1 h2 rfl
  exact congrArg Prod.snd this

lemma mem_values_mapDelete (m : List (ℕ × ℕ)) (pid id sl : ℕ)
    (hkeys : (m.map Prod.fst).Nodup) (hvals : (m.map Prod.snd).Nodup)
    (hmem : (pid, id) ∈ m) :
    sl ∈ (mapDelete m pid).map Prod.snd ↔ sl ∈ m.map Prod.snd ∧ sl ≠ id := by
  constructor
  · intro hv
    obtain ⟨p, hp, rfl⟩ := List.mem_map.mp hv
    obtain ⟨hpm, hpk⟩ := (mem_mapDelete p m pid).mp hp
    refine ⟨List.mem_map.mpr ⟨p, hpm, rfl⟩, ?_⟩
    intro hid
    have hpm' : (p.1, id) ∈ m := hid ▸ hpm
    exact hpk (values_nodup_key_eq hvals hpm' hmem)
  · rintro ⟨hv, hne⟩
    obtain ⟨p, hp, rfl⟩ := List.mem_map.mp hv
    refine List.mem_map.mpr ⟨p, (mem_mapDelete p m pid).mpr ⟨hp, ?_⟩, rfl⟩
    intro hkk
    have hpm' : (pid, p.2) ∈ m := hkk ▸ hp
    exact hne (keys_nodup_value_eq hkeys hpm' hmem)

lemma nodup_concat {l : List ℕ} {a : ℕ} (hl : l.Nodup) (ha : a ∉ l) :
    (l ++ [a]).Nodup := by
  simp [List.nodup_append, hl, ha]

lemma getLast?_some_concat {l : List ℕ} {r : ℕ} (h : l.getLast? = some r) :
    ∃ l2, l = l2 ++ [r] := by
  induction l with
  | nil => simp at h
  | cons a rest ih =>
    cases rest with
    | nil =>
      simp at h
      exact ⟨[], by simp [h]⟩
    | cons b rest2 =>
      rw [List.getLast?_cons_cons] at h
      obtain ⟨l2, hl⟩ := ih h
      exact ⟨a :: l2, by rw [hl]; rfl⟩

lemma getD_ite {α : Type} (c : Prop) [Decidable c] (a d : α) :
    (if c then some a else none).getD d = if c then a else d := by
  split <;> rfl

lemma sendFullFrame_single (act : List (ℕ × (ℚ × ℚ))) (id : ℕ) (a : MTAction)
    (h : act ≠ []) :
    sendFullFrame act [(id, a)] = some (pointsOf act id a) := by
  have hmap : (act.map fun p =>
      MTPoint.mk p.1 p.2.1 p.2.2 ((mget [(id, a)] p.1).getD MTAction.move))
      = pointsOf act id a := by
    simp only [pointsOf]
    apply List.map_congr_left
    intro p _
    by_cases hq : id = p.1
    · simp [hq]
    · simp [hq]
  obtain ⟨p0, rest, rfl⟩ := List.exists_cons_of_ne_nil h
  simp only [sendFullFrame]
  rw [hmap]
  have hne : (pointsOf (p0 :: rest) id a).isEmpty = false := by
    simp [pointsOf]
  simp [hne]

lemma sendFullFrame_no_overrides (act : List (ℕ × (ℚ × ℚ))) (chg : ℕ)
    (h : act ≠ []) :
    sendFullFrame act [] = some (pointsOf act chg MTAction.move) := by
  have hmap : (act.map fun p =>
      MTPoint.mk p.1 p.2.1 p.2.2 ((mget ([] : List (ℕ × MTAction)) p.1).getD
        MTAction.move))
      = pointsOf act chg MTAction.move := by
    simp only [pointsOf]
    apply List.map_congr_left
    intro p _
    simp [ite_self]
  obtain ⟨p0, rest, rfl⟩ := List.exists_cons_of_ne_nil h
  simp only [sendFullFrame]
  rw [hmap]
  have hne : (pointsOf (p0 :: rest) chg MTAction.move).isEmpty = false := by
    simp [pointsOf]
  simp [hne]

lemma alloc_active (s : TouchState) (pid : ℕ) : (alloc s pid).2.active = s.active := by
  cases h : mget s.slotByPointerId pid with
  | some old => simp [alloc, h]
  | none => cases hf : s.freeSlots.getLast? <;> simp [alloc, h, hf]

lemma alloc_mget_self (s : TouchState) (pid : ℕ) :
    mget (alloc s pid).2.slotByPointerId pid = some (alloc s pid).1 := by
  cases h : mget s.slotByPointerId pid with
  | some old => simp [alloc, h]
  | none =>
    cases hf : s.freeSlots.getLast? with
    | some r => simp [alloc, h, hf, mget_mapSet_self]
    | none => simp [alloc, h, hf, mget_mapSet_self]

lemma touchStep_down_eq (s : TouchState) (pid : ℕ) (x y : ℚ) :
    touchStep s (TEvent.down pid x y) =
      ({ (alloc s pid).2 with
          active := mapSet (alloc s pid).2.active (alloc s pid).1 (x, y) },
        sendFullFrame (mapSet (alloc s pid).2.active (alloc s pid).1 (x, y))
          [((alloc s pid).1, MTAction.down)]) := by
  simp only [touchStep]

lemma touchStep_move_eq (s : TouchState) (pid : ℕ) (x y : ℚ) (id : ℕ)
    (h : mget s.slotByPointerId pid = some id) :
    touchStep s (TEvent.move pid x y) =
      ({ s with active := mapSet s.active id (x, y) },
        sendFullFrame (mapSet s.active id (x, y)) []) := by
  simp [touchStep, h]

lemma touchStep_up_eq (s : TouchState) (pid : ℕ) (x y : ℚ) (id : ℕ)
    (h : mget s.slotByPointerId pid = some id) :
    touchStep s (TEvent.up pid x y) =
      (free { s with active := mapSet s.active id (x, y) } pid,
        sendFullFrame (mapSet s.active id (x, y)) [(id, MTAction.up)]) := by
  simp [touchStep, h]

lemma free_eq (s : TouchState) (pid : ℕ) (id : ℕ)
    (h : mget s.slotByPointerId pid = some id) :
    free s pid = { s with
      slotByPointerId := mapDelete s.slotByPointerId pid
      active := mapDelete s.active id
      freeSlots := s.freeSlots ++ [id] } := by
  simp [free, h]

lemma slotMap_touchStep_move (s : TouchState) (pid : ℕ) (x y : ℚ) :
    (touchStep s (TEvent.move pid x y)).1.slotByPointerId = s.slotByPointerId := by
  cases h : mget s.slotByPointerId pid <;> simp [touchStep, h]

lemma keys_alloc (s : TouchState) (pid : ℕ) :
    (alloc s pid).2.slotByPointerId.map Prod.fst =
      (if pid ∈ s.slotByPointerId.map Prod.fst
        then s.slotByPointerId.map Prod.fst
        else s.slotByPointerId.map Prod.fst ++ [pid]) := by
  cases h : mget s.slotByPointerId pid with
  | some old =>
    have hmem : pid ∈ s.slotByPointerId.map Prod.fst :=
      (mget_isSome_iff _ _).mp (by simp [h])
    simp [alloc, h, hmem]
  | none =>
    have hmem : pid ∉ s.slotByPointerId.map Prod.fst := (mget_eq_none_iff _ _).mp h
    cases hf : s.freeSlots.getLast? with
    | some r => simp [alloc, h, hf, hmem, keys_mapSet_of_none _ _ _ h]
    | none => simp [alloc, h, hf, hmem, keys_mapSet_of_none _ _ _ h]

lemma keys_touchStep_down (s : TouchState) (pid : ℕ) (x y : ℚ) :
    (touchStep s (TEvent.down pid x y)).1.slotByPointerId.map Prod.fst =
      (if pid ∈ s.slotByPointerId.map Prod.fst
        then s.slotByPointerId.map Prod.fst
        else s.slotByPointerId.map Prod.fst ++ [pid]) := by
  rw [touchStep_down_eq]
  exact keys_alloc s pid

lemma keys_touchStep_up (s : TouchState) (pid : ℕ) (x y : ℚ) :
    (touchStep s (TEvent.up pid x y)).1.slotByPointerId.map Prod.fst =
      (s.slotByPointerId.map Prod.fst).filter (fun q => q != pid) := by
  cases h : mget s.slotByPointerId pid with
  | none =>
    have hmem : pid ∉ s.slotByPointerId.map Prod.fst := (mget_eq_none_iff _ _).mp h
    simp only [touchStep, h]
    symm
    apply List.filter_eq_self.mpr
    intro q hq
    simp only [bne_iff_ne, ne_eq]
    exact fun hqq => hmem (hqq ▸ hq)
  | some id =>
    rw [touchStep_up_eq s pid x y id h, free_eq { s with active := mapSet s.active id (x, y) } pid id h]
    exact keys_mapDelete _ _

lemma keys_runTouch (evs : List TEvent) :
    ∀ s : TouchState,
      (runTouch s evs).slotByPointerId.map Prod.fst =
        activePids (s.slotByPointerId.map Prod.fst) evs := by
  induction evs with
  | nil => intro s; simp [runTouch, activePids]
  | cons e rest ih =>
    intro s
    cases e with
    | down pid x y =>
      simp only [runTouch, activePids]
      rw [ih, keys_touchStep_down]
    | move pid x y =>
      simp only [runTouch, activePids]
      rw [ih, slotMap_touchStep_move]
    | up pid x y =>
      simp only [runTouch, activePids]
      rw [ih, keys_touchStep_up]

lemma touchStep_slot_stable (s : TouchState) (e : TEvent) (pid slot : ℕ)
    (h : mget s.slotByPointerId pid = some slot)
    (hne : ∀ x y, e ≠ TEvent.up pid x y) :
    mget (touchStep s e).1.slotByPointerId pid = some slot := by
  cases e with
  | move pid2 x y => rw [slotMap_touchStep_move]; exact h
  | down pid2 x y =>
    rw [touchStep_down_eq]
    show mget (alloc s pid2).2.slotByPointerId pid = some slot
    by_cases hp : pid2 = pid
    · subst hp
      simp [alloc, h]
    · cases h2 : mget s.slotByPointerId pid2 with
      | some old => simp [alloc, h2, h]
      | none =>
        have hp' : pid ≠ pid2 := fun hh => hp hh.symm
        cases hf : s.freeSlots.getLast? with
        | some r =>
          simp only [alloc, h2, hf]
          rw [mget_mapSet_ne _ _ _ _ hp']
          exact h
        | none =>
          simp only [alloc, h2, hf]
          rw [mget_mapSet_ne _ _ _ _ hp']
          exact h
  | up pid2 x y =>
    have hp : ¬ pid2 = pid := by
      intro hh
      exact hne x y (by rw [hh])
    cases h2 : mget s.slotByPointerId pid2 with
    | none =>
      simp only [touchStep, h2]
      exact h
    | some id2 =>
      rw [touchStep_up_eq s pid2 x y id2 h2, free_eq { s with active := mapSet s.active id2 (x, y) } pid2 id2 h2]
      show mget (mapDelete s.slotByPointerId pid2) pid = some slot
      rw [mget_mapDelete_ne _ _ _ (fun hh => hp hh.symm)]
      exact h

lemma touchStep_new_only_down (s : TouchState) (e : TEvent) (pid : ℕ)
    (h : mget s.slotByPointerId pid = none)
    (h2 : (mget (touchStep s e).1.slotByPointerId pid).isSome = true) :
    ∃ x y, e = TEvent.down pid x y := by
  cases e with
  | down pid2 x y =>
    refine ⟨x, y, ?_⟩
    by_cases hp : pid2 = pid
    · rw [hp]
    · exfalso
      have h2' : (mget (alloc s pid2).2.slotByPointerId pid).isSome = true := h2
      have hh : mget (alloc s pid2).2.slotByPointerId pid = none := by
        cases h3 : mget s.slotByPointerId pid2 with
        | some old => simpa [alloc, h3] using h
        | none =>
          have hp' : pid ≠ pid2 := fun hh => hp hh.symm
          cases hf : s.freeSlots.getLast? with
          | some r =>
            simp only [alloc, h3, hf]
            rw [mget_mapSet_ne _ _ _ _ hp']
            exact h
          | none =>
            simp only [alloc, h3, hf]
            rw [mget_mapSet_ne _ _ _ _ hp']
            exact h
      rw [hh] at h2'
      simp at h2'
  | move pid2 x y =>
    exfalso
    rw [slotMap_touchStep_move] at h2
    simp [h] at h2
  | up pid2 x y =>
    exfalso
    cases h3 : mget s.slotByPointerId pid2 with
    | none =>
      have h2' : (mget s.slotByPointerId pid).isSome = true := by
        simpa only [touchStep, h3] using h2
      simp [h] at h2'
    | some id2 =>
      rw [touchStep_up_eq s pid2 x y id2 h3, free_eq { s with active := mapSet s.active id2 (x, y) } pid2 id2 h3] at h2
      have h2' : (mget (mapDelete s.slotByPointerId pid2) pid).isSome = true := h2
      by_cases hp : pid2 = pid
      · subst hp
        rw [mget_mapDelete_self] at h2'
        simp at h2'
      · rw [mget_mapDelete_ne _ _ _ (fun hh => hp hh.symm), h] at h2'
        simp at h2'

lemma TInv_init : TInv touchInit := by
  simp [TInv, touchInit]

lemma TInv_set_active (s : TouchState) (X : List (ℕ × (ℚ × ℚ)))
    (hX : X.map Prod.fst = s.active.map Prod.fst) (hInv : TInv s) :
    TInv { s with active := X } := by
  obtain ⟨hk, hv, hfn, hfd, hvl, hfl, hcorr⟩ := hInv
  refine ⟨hk, hv, hfn, hfd, hvl, hfl, fun sl => ?_⟩
  have hXX : ({ s with active := X } : TouchState).active.map Prod.fst
      = s.active.map Prod.fst := hX
  rw [hXX]
  exact hcorr sl

lemma keys_mapSet_active_of_mem (s : TouchState) (id : ℕ) (v : ℚ × ℚ)
    (hcorr : ∀ sl, sl ∈ s.active.map Prod.fst ↔ sl ∈ s.slotByPointerId.map Prod.snd)
    (hid : id ∈ s.slotByPointerId.map Prod.snd) :
    (mapSet s.active id v).map Prod.fst = s.active.map Prod.fst := by
  apply keys_mapSet_of_isSome
  rw [mget_isSome_iff]
  exact (hcorr id).mpr hid

lemma alloc_fresh (s : TouchState) (pid : ℕ) (hInv : TInv s)
    (h : mget s.slotByPointerId pid = none) :
    (alloc s pid).1 ∉ s.slotByPointerId.map Prod.snd := by
  cases hf : s.freeSlots.getLast? with
  | some r =>
    have hr : r ∈ s.freeSlots := by
      obtain ⟨l2, hl⟩ := getLast?_some_concat hf
      rw [hl]
      simp
    have h1 : (alloc s pid).1 = r := by simp [alloc, h, hf]
    rw [h1]
    exact hInv.2.2.2.1 r hr
  | none =>
    have h1 : (alloc s pid).1 = s.nextSlot := by simp [alloc, h, hf]
    rw [h1]
    intro hm
    exact absurd (hInv.2.2.2.2.1 s.nextSlot hm) (lt_irrefl _)

lemma TInv_down_append (s : TouchState) (pid r : ℕ) (x y : ℚ) (l2 : List ℕ)
    (hk : (s.slotByPointerId.map Prod.fst).Nodup)
    (hv : (s.slotByPointerId.map Prod.snd).Nodup)
    (hl2 : l2.Nodup)
    (hpid : pid ∉ s.slotByPointerId.map Prod.fst)
    (hrv : r ∉ s.slotByPointerId.map Prod.snd)
    (hl2v : ∀ sl ∈ l2, sl ∉ s.slotByPointerId.map Prod.snd)
    (hl2r : r ∉ l2)
    (hvl : ∀ sl ∈ s.slotByPointerId.map Prod.snd, sl < s.nextSlot)
    (hrn : r < s.nextSlot)
    (hl2n : ∀ sl ∈ l2, sl < s.nextSlot)
    (hcorr : ∀ sl, sl ∈ s.active.map Prod.fst ↔ sl ∈ s.slotByPointerId.map Prod.snd) :
    TInv { slotByPointerId := s.slotByPointerId ++ [(pid, r)]
           active := s.active ++ [(r, (x, y))]
           freeSlots := l2
           nextSlot := s.nextSlot } := by
  refine ⟨?_, ?_, ?_, ?_, ?_, ?_, ?_⟩
  · show ((s.slotByPointerId ++ [(pid, r)]).map Prod.fst).Nodup
    simp only [List.map_append, List.map_cons, List.map_nil]
    exact nodup_concat hk hpid
  · show ((s.slotByPointerId ++ [(pid, r)]).map Prod.snd).Nodup
    simp only [List.map_append, List.map_cons, List.map_nil]
    exact nodup_concat hv hrv
  · exact hl2
  · intro sl hsl
    show sl ∉ (s.slotByPointerId ++ [(pid, r)]).map Prod.snd
    simp only [List.map_append, List.map_cons, List.map_nil, List.mem_append,
      List.mem_singleton]
    rintro (hmem | rfl)
    · exact hl2v sl hsl hmem
    · exact hl2r hsl
  · intro sl hm
    simp only [List.map_append, List.map_cons, List.map_nil, List.mem_append,
      List.mem_singleton] at hm
    rcases hm with hm | rfl
    · exact hvl sl hm
    · exact hrn
  · intro sl hsl
    exact hl2n sl hsl
  · intro sl
    show sl ∈ (s.active ++ [(r, (x, y))]).map Prod.fst ↔
      sl ∈ (s.slotByPointerId ++ [(pid, r)]).map Prod.snd
    simp only [List.map_append, List.map_cons, List.map_nil, List.mem_append,
      List.mem_singleton]
    rw [hcorr sl]

lemma TInv_down_fresh (s : TouchState) (pid : ℕ) (x y : ℚ)
    (hInv : TInv s)
    (hpid : pid ∉ s.slotByPointerId.map Prod.fst) :
    TInv { slotByPointerId := s.slotByPointerId ++ [(pid, s.nextSlot)]
           active := s.active ++ [(s.nextSlot, (x, y))]
           freeSlots := s.freeSlots
           nextSlot := s.nextSlot + 1 } := by
  obtain ⟨hk, hv, hfn, hfd, hvl, hfl, hcorr⟩ := hInv
  refine ⟨?_, ?_, ?_, ?_, ?_, ?_, ?_⟩
  · show ((s.slotByPointerId ++ [(pid, s.nextSlot)]).map Prod.fst).Nodup
    simp only [List.map_append, List.map_cons, List.map_nil]
    exact nodup_concat hk hpid
  · show ((s.slotByPointerId ++ [(pid, s.nextSlot)]).map Prod.snd).Nodup
    simp only [List.map_append, List.map_cons, List.map_nil]
    exact nodup_concat hv (fun hm => absurd (hvl _ hm) (lt_irrefl _))
  · exact hfn
  · intro sl hsl
    show sl ∉ (s.slotByPointerId ++ [(pid, s.nextSlot)]).map Prod.snd
    simp only [List.map_append, List.map_cons, List.map_nil, List.mem_append,
      List.mem_singleton]
    rintro (hmem | rfl)
    · exact hfd sl hsl hmem
    · exact absurd (hfl _ hsl) (lt_irrefl _)
  · intro sl hm
    simp only [List.map_append, List.map_cons, List.map_nil, List.mem_append,
      List.mem_singleton] at hm
    rcases hm with hm | rfl
    · exact Nat.lt_succ_of_lt (hvl sl hm)
    · exact Nat.lt_succ_self _
  · intro sl hsl
    exact Nat.lt_succ_of_lt (hfl sl hsl)
  · intro sl
    show sl ∈ (s.active ++ [(s.nextSlot, (x, y))]).map Prod.fst ↔
      sl ∈ (s.slotByPointerId ++ [(pid, s.nextSlot)]).map Prod.snd
    simp only [List.map_append, List.map_cons, List.map_nil, List.mem_append,
      List.mem_singleton]
    rw [hcorr sl]

lemma TInv_up_state (s : TouchState) (pid id : ℕ) (x y : ℚ)
    (hInv : TInv s)
    (hmg : mget s.slotByPointerId pid = some id) :
    TInv { slotByPointerId := mapDelete s.slotByPointerId pid
           active := mapDelete (mapSet s.active id (x, y)) id
           freeSlots := s.freeSlots ++ [id]
           nextSlot := s.nextSlot } := by
  obtain ⟨hk, hv, hfn, hfd, hvl, hfl, hcorr⟩ := hInv
  have hmem : (pid, id) ∈ s.slotByPointerId := mget_mem hmg
  have hidv : id ∈ s.slotByPointerId.map Prod.snd := mget_snd_mem hmg
  have hact1keys : (mapSet s.active id (x, y)).map Prod.fst = s.active.map Prod.fst :=
    keys_mapSet_active_of_mem s id (x, y) hcorr hidv
  refine ⟨?_, ?_, ?_, ?_, ?_, ?_, ?_⟩
  · show ((mapDelete s.slotByPointerId pid).map Prod.fst).Nodup
    exact hk.sublist ((List.filter_sublist _).map Prod.fst)
  · show ((mapDelete s.slotByPointerId pid).map Prod.snd).Nodup
    exact hv.sublist ((List.filter_sublist _).map Prod.snd)
  · show (s.freeSlots ++ [id]).Nodup
    exact nodup_concat hfn (fun hm => hfd id hm hidv)
  · intro sl hsl
    show sl ∉ (mapDelete s.slotByPointerId pid).map Prod.snd
    rw [mem_values_mapDelete _ pid id sl hk hv hmem]
    simp only [List.mem_append, List.mem_singleton] at hsl
    rcases hsl with hsl | rfl
    · rintro ⟨hmv, -⟩
      exact hfd sl hsl hmv
    · rintro ⟨-, hne⟩
      exact hne rfl
  · intro sl hm
    show sl < s.nextSlot
    have := (mem_values_mapDelete _ pid id sl hk hv hmem).mp hm
    exact hvl sl this.1
  · intro sl hsl
    show sl < s.nextSlot
    simp only [List.mem_append, List.mem_singleton] at hsl
    rcases hsl with hsl | rfl
    · exact hfl sl hsl
    · exact hvl sl hidv
  · intro sl
    show sl ∈ (mapDelete (mapSet s.active id (x, y)) id).map Prod.fst ↔
      sl ∈ (mapDelete s.slotByPointerId pid).map Prod.snd
    rw [keys_mapDelete, hact1keys, mem_values_mapDelete _ pid id sl hk hv hmem,
      List.mem_filter]
    simp only [bne_iff_ne, ne_eq]
    rw [hcorr sl]

lemma TInv_touchStep (s : TouchState) (e : TEvent) (hInv : TInv s) :
    TInv (touchStep s e).1 := by
  cases e with
  | move pid x y =>
    cases h : mget s.slotByPointerId pid with
    | none => simpa only [touchStep, h] using hInv
    | some id =>
      have hidv : id ∈ s.slotByPointerId.map Prod.snd := mget_snd_mem h
      have hkeys : (mapSet s.active id (x, y)).map Prod.fst = s.active.map Prod.fst :=
        keys_mapSet_active_of_mem s id (x, y) hInv.2.2.2.2.2.2 hidv
      rw [touchStep_move_eq s pid x y id h]
      exact TInv_set_active s _ hkeys hInv
  | down pid x y =>
    cases h : mget s.slotByPointerId pid with
    | some old =>
      have halloc : alloc s pid = (old, s) := by simp [alloc, h]
      have hkeys : (mapSet s.active old (x, y)).map Prod.fst = s.active.map Prod.fst :=
        keys_mapSet_active_of_mem s old (x, y) hInv.2.2.2.2.2.2 (mget_snd_mem h)
      rw [touchStep_down_eq, halloc]
      exact TInv_set_active s _ hkeys hInv
    | none =>
      have hpid : pid ∉ s.slotByPointerId.map Prod.fst := (mget_eq_none_iff _ _).mp h
      obtain ⟨hk, hv, hfn, hfd, hvl, hfl, hcorr⟩ := hInv
      have hmapS := mapSet_of_none s.slotByPointerId pid
      cases hf : s.freeSlots.getLast? with
      | some r =>
        obtain ⟨l2, hl⟩ := getLast?_some_concat hf
        have hrfree : r ∈ s.freeSlots := by rw [hl]; simp
        have hrv : r ∉ s.slotByPointerId.map Prod.snd := hfd r hrfree
        have hract : mget s.active r = none := by
          rw [mget_eq_none_iff]
          intro hmemr
          exact hrv ((hcorr r).mp hmemr)
        have hfn' : (l2 ++ [r]).Nodup := hl ▸ hfn
        have hl2 : l2.Nodup := hfn'.sublist (List.sublist_append_left _ _)
        have hl2r : r ∉ l2 := fun hm =>
          (List.disjoint_of_nodup_append hfn') hm (by simp)
        have hdrop : s.freeSlots.dropLast = l2 := by
          rw [hl]
          exact List.dropLast_concat
        have hstate : (touchStep s (TEvent.down pid x y)).1 =
            { slotByPointerId := s.slotByPointerId ++ [(pid, r)]
              active := s.active ++ [(r, (x, y))]
              freeSlots := l2
              nextSlot := s.nextSlot } := by
          simp only [touchStep, alloc, h, hf, hmapS r h,
            mapSet_of_none s.active r (x, y) hract, hdrop]
        rw [hstate]
        exact TInv_down_append s pid r x y l2 hk hv hl2 hpid hrv
          (fun sl hsl => hfd sl (by rw [hl]; exact List.mem_append_left _ hsl))
          hl2r hvl (hfl r hrfree)
          (fun sl hsl => hfl sl (by rw [hl]; exact List.mem_append_left _ hsl))
          hcorr
      | none =>
        have hnact : mget s.active s.nextSlot = none := by
          rw [mget_eq_none_iff]
          intro hmemn
          exact absurd (hvl _ ((hcorr s.nextSlot).mp hmemn)) (lt_irrefl _)
        have hstate : (touchStep s (TEvent.down pid x y)).1 =
            { slotByPointerId := s.slotByPointerId ++ [(pid, s.nextSlot)]
              active := s.active ++ [(s.nextSlot, (x, y))]
              freeSlots := s.freeSlots
              nextSlot := s.nextSlot + 1 } := by
          simp only [touchStep, alloc, h, hf, hmapS s.nextSlot h,
            mapSet_of_none s.active s.nextSlot (x, y) hnact]
        rw [hstate]
        exact TInv_down_fresh s pid x y ⟨hk, hv, hfn, hfd, hvl, hfl, hcorr⟩ hpid
  | up pid x y =>
    cases h : mget s.slotByPointerId pid with
    | none => simpa only [touchStep, h] using hInv
    | some id =>
      rw [touchStep_up_eq s pid x y id h, free_eq { s with active := mapSet s.active id (x, y) } pid id h]
      exact TInv_up_state s pid id x y hInv h

lemma TInv_runTouch (evs : List TEvent) : ∀ s : TouchState, TInv s → TInv (runTouch s evs) := by
  induction evs with
  | nil => intro s h; exact h
  | cons e rest ih => intro s h; exact ih _ (TInv_touchStep s e h)

/-- **C7**: over any sequence of pointer events handled by the multi-touch
hook: a pointer-down or pointer-up sends a full-frame snapshot of every
active pointer at its current position, the changed pointer carrying Down
resp. Up and every other pointer Move, and a move sends the snapshot with
every pointer on Move; the mapped pointers are exactly those seen Down and
not yet released; a mapped pointer's slot survives every event except its
own release, a new mapping arises only from that pointer's own down, and the
slot it is then given is never one still held by a live pointer (it must
first have been released, which pushes it on the free list); the active map
is keyed exactly by the live slots. -/
theorem c7_multitouch_slots :
    (∀ (s : TouchState) (pid : ℕ) (x y : ℚ),
      (touchStep s (TEvent.down pid x y)).2 =
        some (pointsOf (touchStep s (TEvent.down pid x y)).1.active
          (alloc s pid).1 MTAction.down) ∧
      mget (touchStep s (TEvent.down pid x y)).1.active (alloc s pid).1 = some (x, y) ∧
      mget (touchStep s (TEvent.down pid x y)).1.slotByPointerId pid =
        some (alloc s pid).1) ∧
    (∀ (s : TouchState) (pid : ℕ) (x y : ℚ) (id : ℕ),
      mget s.slotByPointerId pid = some id →
      touchStep s (TEvent.move pid x y) =
        ({ s with active := mapSet s.active id (x, y) },
          some (pointsOf (mapSet s.active id (x, y)) id MTAction.move))) ∧
    (∀ (s : TouchState) (pid : ℕ) (x y : ℚ) (id : ℕ),
      mget s.slotByPointerId pid = some id →
      (touchStep s (TEvent.up pid x y)).2 =
        some (pointsOf (mapSet s.active id (x, y)) id MTAction.up) ∧
      mget (mapSet s.active id (x, y)) id = some (x, y) ∧
      mget (touchStep s (TEvent.up pid x y)).1.slotByPointerId pid = none ∧
      mget (touchStep s (TEvent.up pid x y)).1.active id = none ∧
      id ∈ (touchStep s (TEvent.up pid x y)).1.freeSlots) ∧
    (∀ evs : List TEvent,
      (runTouch touchInit evs).slotByPointerId.map Prod.fst = activePids [] evs) ∧
    (∀ (s : TouchState) (e : TEvent) (pid slot : ℕ),
      mget s.slotByPointerId pid = some slot →
      (∀ x y, e ≠ TEvent.up pid x y) →
      mget (touchStep s e).1.slotByPointerId pid = some slot) ∧
    (∀ (s : TouchState) (e : TEvent) (pid : ℕ),
      mget s.slotByPointerId pid = none →
      (mget (touchStep s e).1.slotByPointerId pid).isSome = true →
      ∃ x y, e = TEvent.down pid x y) ∧
    TInv touchInit ∧
    (∀ (s : TouchState) (e : TEvent), TInv s → TInv (touchStep s e).1) ∧
    (∀ (s : TouchState) (pid : ℕ), TInv s →
      mget s.slotByPointerId pid = none →
      (alloc s pid).1 ∉ s.slotByPointerId.map Prod.snd) ∧
    (∀ (evs : List TEvent) (sl : ℕ),
      sl ∈ (runTouch touchInit evs).active.map Prod.fst ↔
        sl ∈ (runTouch touchInit evs).slotByPointerId.map Prod.snd) := by
  refine ⟨?_, ?_, ?_, ?_, ?_, ?_, TInv_init, TInv_touchStep, ?_, ?_⟩
  · intro s pid x y
    rw [touchStep_down_eq]
    refine ⟨?_, mget_mapSet_self _ _ _, alloc_mget_self s pid⟩
    exact sendFullFrame_single _ _ _ (mapSet_ne_nil _ _ _)
  · intro s pid x y id h
    rw [touchStep_move_eq s pid x y id h,
      sendFullFrame_no_overrides _ id (mapSet_ne_nil _ _ _)]
  · intro s pid x y id h
    rw [touchStep_up_eq s pid x y id h, free_eq { s with active := mapSet s.active id (x, y) } pid id h]
    exact ⟨sendFullFrame_single _ _ _ (mapSet_ne_nil _ _ _),
      mget_mapSet_self _ _ _, mget_mapDelete_self _ _, mget_mapDelete_self _ _,
      by simp⟩
  · intro evs
    exact keys_runTouch evs touchInit
  · exact touchStep_slot_stable
  · exact touchStep_new_only_down
  · exact alloc_fresh
  · intro evs sl
    exact (TInv_runTouch evs touchInit TInv_init).2.2.2.2.2.2 sl

/-- Witness for C7: a concrete two-finger trace.  Pointer 7 is mapped to
slot 0; a move of pointer 7 sends a full frame with both actions Move, and
the trace down 7, down 9, up 7, down 11 leaves pointers 9 and 11 mapped. -/
theorem c7_multitouch_slots_witness :
    mget (⟨[(7, 0), (9, 1)], [(0, (0, 0)), (1, (1, 1))], [], 2⟩ :
        TouchState).slotByPointerId 7 = some 0 ∧
    touchStep (⟨[(7, 0), (9, 1)], [(0, (0, 0)), (1, (1, 1))], [], 2⟩ : TouchState)
        (TEvent.move 7 (1/4) (3/4)) =
      (⟨[(7, 0), (9, 1)], mapSet [(0, ((0 : ℚ), (0 : ℚ))), (1, (1, 1))] 0 (1/4, 3/4),
          [], 2⟩,
        some (pointsOf (mapSet [(0, ((0 : ℚ), (0 : ℚ))), (1, (1, 1))] 0 (1/4, 3/4))
          0 MTAction.move)) ∧
    (runTouch touchInit [TEvent.down 7 0 0, TEvent.down 9 1 1, TEvent.up 7 0 0,
        TEvent.down 11 1 0]).slotByPointerId.map Prod.fst =
      activePids [] [TEvent.down 7 0 0, TEvent.down 9 1 1, TEvent.up 7 0 0,
        TEvent.down 11 1 0] :=
  ⟨by decide,
    c7_multitouch_slots.2.1 ⟨[(7, 0), (9, 1)], [(0, (0, 0)), (1, (1, 1))], [], 2⟩
      7 (1/4) (3/4) 0 (by decide),
    c7_multitouch_slots.2.2.2.1 [TEvent.down 7 0 0, TEvent.down 9 1 1,
      TEvent.up 7 0 0, TEvent.down 11 1 0]⟩

end PiCarplay
